import Mathlib

/-!
Formal model of `lib/ClusterShell/NodeSet.py` (ClusterShell node set engine).

The development shallowly embeds the Python source:

* `RangeSet` is imported by the source from `ClusterShell.RangeSet`, a file
  that is not part of this tree; it is modelled from the specification
  (sections 3, 4.1 and 6 of the design document): an ordered set of
  non-negative integers together with a zero-padding width and an autostep
  threshold.
* `NodeSetBase` mirrors the dict `template -> RangeSet-or-None` as an
  association list; Python dict semantics (unique keys, replace on
  assignment) are modelled by `lookupPat` / `setPat`, and the calls to
  `sorted(...)` in the source are modelled by an explicit sort at the
  iteration points.
* Fallible Python code (raise statements, failing asserts, calls of a
  method on `None`, argument-count errors) is modelled with `Except PyErr`.

All definitions are executable; theorems about concrete inputs evaluate.
-/

/-- Python exceptions raised (directly or indirectly) by the modelled code. -/
inductive PyErr where
  | typeError (msg : String)
  | keyError (key : String)
  | assertionError
  | attributeError (msg : String)
  | indexError (msg : String)
  | valueError (msg : String)
  | nodeSetParseError (part : Option String) (msg : String)
  | nodeSetParseRangeError (msg : String)
  | rangeSetParseError (part : String) (msg : String)
deriving Repr, DecidableEq

/-- Insert `x` into a list sorted in ascending order (used to model
`RangeSet._sorted()`, which returns the members in ascending numeric
order). -/
def sortedInsertNat (x : Nat) : List Nat → List Nat
  | [] => [x]
  | y :: t => if x ≤ y then x :: y :: t else y :: sortedInsertNat x t

/-- Insertion sort on naturals, ascending. -/
def sortNat : List Nat → List Nat
  | [] => []
  | x :: t => sortedInsertNat x (sortNat t)

/-- Set union of two member lists: keep the left list and append the
right list's members that are not already present. The source stores
`RangeSet` members in a set and sorts on demand; this model keeps a list
without duplicates (given duplicate-free inputs) and sorts at the
`_sorted()` call sites. -/
def listUnion (xs ys : List Nat) : List Nat :=
  xs ++ ys.filter (fun y => !xs.contains y)

/--
Modelled from the spec: `RangeSet` (ClusterShell.RangeSet is not under
`src/`). An ordered set of non-negative integers, plus `padding` (0 means
"no leading zeros", k > 0 means render every member with exactly k digits)
and an `autostep` threshold controlling `a-b/step` folding.

`elems` holds the members; the source keeps them in a set and sorts on
demand (`_sorted()`), which the model mirrors with `sortNat` at the use
sites.
-/
structure RangeSet where
  elems : List Nat
  padding : Nat
  autostep : Option Nat
deriving Repr, DecidableEq

namespace RangeSet

/-- Modelled from the spec: number of members (`len`). -/
def size (r : RangeSet) : Nat := r.elems.length

/-- Python truthiness of a RangeSet object: non-empty. -/
def truthy (r : RangeSet) : Bool := !r.elems.isEmpty

/-- Modelled from the spec: `RangeSet.fromone(index, pad)` builds a
one-member set carrying the given padding. -/
def fromone (index : Nat) (pad : Nat) : RangeSet :=
  ⟨[index], pad, none⟩

/-- Modelled from the spec: `update` merges the other set's members into
self, preserving the left operand's `padding` and `autostep`. -/
def update (r other : RangeSet) : RangeSet :=
  ⟨listUnion r.elems other.elems, r.padding, r.autostep⟩

/-- Modelled from the spec: `intersection_update` keeps only members also
found in the other set; left operand's `padding`/`autostep` preserved. -/
def intersection_update (r other : RangeSet) : RangeSet :=
  ⟨r.elems.filter (fun x => other.elems.contains x), r.padding, r.autostep⟩

/-- Modelled from the spec: strict `difference_update` fails with
`MissingMember(i)` (a `KeyError` in the source taxonomy) on the first
`i ∈ other \ self`; the non-strict variant tolerates absent members. -/
def difference_update (r other : RangeSet) (strict : Bool) :
    Except PyErr RangeSet :=
  match strict, other.elems.find? (fun x => !r.elems.contains x) with
  | true, some i => .error (.keyError (toString i))
  | _, _ =>
    .ok ⟨r.elems.filter (fun x => !other.elems.contains x),
         r.padding, r.autostep⟩

/-- Modelled from the spec: `symmetric_difference_update` keeps the members
found in exactly one of the two sets. -/
def symmetric_difference_update (r other : RangeSet) : RangeSet :=
  ⟨r.elems.filter (fun x => !other.elems.contains x) ++
     other.elems.filter (fun x => !r.elems.contains x),
   r.padding, r.autostep⟩

/-- Modelled from the spec: `issuperset` — every member of the other set is
a member of self. -/
def issuperset (r other : RangeSet) : Bool :=
  other.elems.all (fun x => r.elems.contains x)

end RangeSet

/-- Render `n` in decimal, left-padded with `'0'` to `pad` digits
(`"%0*d" % (pad, n)`). -/
def padNum (pad n : Nat) : String :=
  let s := toString n
  if s.length < pad then String.mk (List.replicate (pad - s.length) '0') ++ s
  else s

/-- Count how many further elements continue the arithmetic run that
currently ends at `x` with stride `d`; also return the remainder. -/
def takeRun (x d : Nat) : List Nat → Nat × List Nat
  | [] => (0, [])
  | y :: t =>
    if y = x + d then
      let (c, r) := takeRun y d t
      (c + 1, r)
    else (0, y :: t)

namespace RangeSet

/--
Modelled from the spec: the folding walk (§4.1). Scan the ascending member
list; a maximal run of stride 1 with at least two members folds to `a-b`; a
maximal run of equal stride `d > 1` folds to `a-b/d` when it has at least
`autostep` members; everything else is emitted one element at a time. The
first argument is recursion fuel (the list length suffices, as each step
consumes at least one element).
-/
def foldGroups (pad : Nat) (autostep : Option Nat) : Nat → List Nat → List String
  | _, [] => []
  | _, [x] => [padNum pad x]
  | 0, l => l.map (padNum pad)
  | fuel + 1, x :: y :: t =>
    let d := y - x
    let (c, rest) := takeRun y d t
    if d = 1 then
      (padNum pad x ++ "-" ++ padNum pad (y + c * d)) ::
        foldGroups pad autostep fuel rest
    else
      match autostep with
      | some thr =>
        if thr ≤ c + 2 then
          (padNum pad x ++ "-" ++ padNum pad (y + c * d) ++ "/" ++ toString d) ::
            foldGroups pad autostep fuel rest
        else padNum pad x :: foldGroups pad autostep fuel (y :: t)
      | none => padNum pad x :: foldGroups pad autostep fuel (y :: t)

/-- Modelled from the spec: `fold()` renders the set to its compact folded
string (`str(rangeset)` in the source's uses). -/
def fold (r : RangeSet) : String :=
  let l := sortNat r.elems
  String.intercalate "," (foldGroups r.padding r.autostep l.length l)

end RangeSet

/-- Parse a literal decimal numeral; returns its value and the padding it
carries (its written length when it has a significant leading zero, else
0 — `008` has padding 3, `8` and `10` have padding 0). -/
def parseNumeral (s : List Char) : Except PyErr (Nat × Nat) :=
  if s.isEmpty then .error (.rangeSetParseError (String.mk s) "empty range")
  else if s.all Char.isDigit then
    let v := s.foldl (fun a c => a * 10 + (c.toNat - '0'.toNat)) 0
    let pad := if s.length > 1 && s.headD '0' == '0' then s.length else 0
    .ok (v, pad)
  else .error (.rangeSetParseError (String.mk s) "cannot parse")

/-- The members `lo, lo+step, ..., ≤ hi` of one folded token (ascending). -/
def expandRange (lo hi step : Nat) : List Nat :=
  (List.range ((hi - lo) / step + 1)).map (fun i => lo + i * step)

/-- Modelled from the spec: parse one folded token — `n`, `a-b`, or
`a-b/step` — into `(lo, hi, step, padding)`. -/
def parseToken (tok : List Char) : Except PyErr (Nat × Nat × Nat × Nat) :=
  match tok.splitOn '-' with
  | [single] => do
    let (v, pad) ← parseNumeral single
    .ok (v, v, 1, pad)
  | [a, b] =>
    match b.splitOn '/' with
    | [hi] => do
      let (lo, pad) ← parseNumeral a
      let (h, _) ← parseNumeral hi
      if h < lo then .error (.rangeSetParseError (String.mk tok) "invalid range")
      else .ok (lo, h, 1, pad)
    | [hi, st] => do
      let (lo, pad) ← parseNumeral a
      let (h, _) ← parseNumeral hi
      let (s, _) ← parseNumeral st
      if h < lo || s == 0 then
        .error (.rangeSetParseError (String.mk tok) "invalid range")
      else .ok (lo, h, s, pad)
    | _ => .error (.rangeSetParseError (String.mk tok) "cannot parse")
  | _ => .error (.rangeSetParseError (String.mk tok) "cannot parse")

namespace RangeSet

/-- Modelled from the spec: fold the remaining comma-separated tokens into
the accumulated member list, requiring each token's padding to agree with
the first token's. -/
def parseRest (pad : Nat) : List Nat → List (List Char) →
    Except PyErr (List Nat)
  | acc, [] => .ok acc
  | acc, tok :: rest => do
    let (lo, hi, st, pad') ← parseToken tok
    if pad' ≠ pad then
      .error (.rangeSetParseError (String.mk tok) "inconsistent padding")
    else parseRest pad (listUnion acc (expandRange lo hi st)) rest

/-- Modelled from the spec: `RangeSet(rangelist, autostep)` — parse a
comma-separated folded range list. The set's padding is that of the first
token; later tokens must be compatible. Failures carry the offending
substring (`RangeSetParseError`). -/
def parseChars (l : List Char) (autostep : Option Nat) :
    Except PyErr RangeSet := do
  match l.splitOn ',' with
  | [] => .error (.rangeSetParseError (String.mk l) "empty rangeset")
  | t0 :: rest => do
    let (lo, hi, st, pad) ← parseToken t0
    let elems ← parseRest pad (expandRange lo hi st) rest
    .ok ⟨elems, pad, autostep⟩

/-- `RangeSet(string, autostep)` on a Lean string. -/
def parse (s : String) (autostep : Option Nat) : Except PyErr RangeSet :=
  parseChars s.data autostep

end RangeSet

example : (RangeSet.parse "0-10" none).map RangeSet.fold = .ok "0-10" := rfl
example : (RangeSet.parse "1,5" none).map RangeSet.fold = .ok "1,5" := rfl
example : (RangeSet.parse "0-10/2" none).map (fun r => r.elems) =
    .ok [0, 2, 4, 6, 8, 10] := rfl

/-- Does the template string contain a substitution slot? A literal `%` in
user input is pre-escaped to `%%` by the scanner, so slot detection must
skip doubled percent signs (`"a%%sb"` has no slot, `"a%sb"` has one). -/
def hasSlotAux : List Char → Bool
  | '%' :: '%' :: t => hasSlotAux t
  | '%' :: 's' :: _ => true
  | _ :: t => hasSlotAux t
  | [] => false

/-- See `hasSlotAux`. -/
def hasSlot (p : String) : Bool := hasSlotAux p.data

/-- Python `%`-formatting restricted to the templates the engine builds:
`%s` is replaced by the argument and `%%` renders as a literal `%`. Other
uses of `%` do not occur in engine-built templates and pass through. -/
def pyFormatAux (arg : List Char) : List Char → List Char
  | '%' :: '%' :: t => '%' :: pyFormatAux arg t
  | '%' :: 's' :: t => arg ++ pyFormatAux arg t
  | c :: t => c :: pyFormatAux arg t
  | [] => []

/-- `template % arg` on Lean strings. -/
def pyFormat (tmpl arg : String) : String := String.mk (pyFormatAux arg.data tmpl.data)

/-- `self._patterns.get(pat)`: outer `Option` is key presence, inner
`Option RangeSet` is the stored value (`None` marks an unnumbered node). -/
def lookupPat : List (String × Option RangeSet) → String → Option (Option RangeSet)
  | [], _ => none
  | (q, v) :: t, p => if q = p then some v else lookupPat t p

/-- `pat in self._patterns` / `has_key`. -/
def memKey (ps : List (String × Option RangeSet)) (p : String) : Bool :=
  (lookupPat ps p).isSome

/-- Python truthiness of a dict value fetched with `.get`: true only for a
present, non-empty RangeSet. -/
def truthyO : Option RangeSet → Bool
  | some r => r.truthy
  | none => false

/-- `self._patterns[pat] = v`: replace the value at an existing key, else
add the key (dict assignment). -/
def setPat : List (String × Option RangeSet) → String → Option RangeSet →
    List (String × Option RangeSet)
  | [], p, v => [(p, v)]
  | (q, w) :: t, p, v => if q = p then (p, v) :: t else (q, w) :: setPat t p v

/-- `for pat in purge_patterns: del self._patterns[pat]` — modelled as one
filter; the purge keys are pairwise distinct whenever the other operand's
keys are (each key is appended to the purge list at most once). -/
def delPats (ps : List (String × Option RangeSet)) (purge : List String) :
    List (String × Option RangeSet) :=
  ps.filter (fun e => !purge.contains e.1)

/-- Lexicographic comparison of char lists by code point (Python 2 compares
byte strings the same way on ASCII data). -/
def charListLe : List Char → List Char → Bool
  | [], _ => true
  | _ :: _, [] => false
  | c :: s, d :: t =>
    if c.toNat < d.toNat then true
    else if d.toNat < c.toNat then false
    else charListLe s t

/-- String order used by `sorted(self._patterns.iteritems())`. -/
def strLe (a b : String) : Bool := charListLe a.data b.data

/-- Insert one entry into a key-sorted entry list. -/
def sortedInsertPat (e : String × Option RangeSet) :
    List (String × Option RangeSet) → List (String × Option RangeSet)
  | [] => [e]
  | f :: t => if strLe e.1 f.1 then e :: f :: t else f :: sortedInsertPat e t

/-- `sorted(self._patterns.iteritems())`: keys are unique in a dict, so
sorting the pairs is sorting by key. -/
def sortPats : List (String × Option RangeSet) → List (String × Option RangeSet)
  | [] => []
  | e :: t => sortedInsertPat e (sortPats t)

/--
`NodeSetBase`: the mapping from a pattern template (a string carrying one
`%s` slot, or none for an unnumbered node) to an optional `RangeSet`,
modelled as an association list standing for the `_patterns` dict.
The derived `_length` cache of the source is not modelled (the source only
ever recomputes `__len__` from the patterns).
-/
structure NodeSetBase where
  patterns : List (String × Option RangeSet)
deriving Repr, DecidableEq

namespace NodeSetBase

/-- `len(self)`: number of nodes. -/
def len (self : NodeSetBase) : Nat :=
  self.patterns.foldl
    (fun acc e => acc + match e.2 with | some rs => rs.size | none => 1) 0

/-- Keys are pairwise distinct (always true of a Python dict). -/
def keysNodup : List (String × Option RangeSet) → Bool
  | [] => true
  | (p, _) :: t => !(memKey t p) && keysNodup t

/-- Data-model invariant: no template maps to an empty RangeSet. -/
def noEmpty (self : NodeSetBase) : Bool :=
  self.patterns.all (fun e => match e.2 with | some rs => rs.truthy | none => true)

/-- Data-model invariant: a template stores a RangeSet exactly when it has a
substitution slot (an unnumbered node's template has no slot). -/
def slotOk (self : NodeSetBase) : Bool :=
  self.patterns.all
    (fun e => match e.2 with | some _ => hasSlot e.1 | none => !hasSlot e.1)

/-- The data-model invariants of §3 for one `NodeSetBase`, plus dict key
uniqueness. -/
def wf (self : NodeSetBase) : Bool :=
  keysNodup self.patterns && self.noEmpty && self.slotOk

/-- `NodeSetBase._add(pat, rangeset)` (source lines 358-378). `rangeset` is
stored by copy in the source; copies are value-identities here. -/
def _add (self : NodeSetBase) (pat : String) (rangeset : Option RangeSet) :
    Except PyErr NodeSetBase :=
  match lookupPat self.patterns pat with
  | some (some e) =>
    if e.truthy then
      -- `if pat_e:` — assert rangeset != None, then pat_e.update(rangeset)
      match rangeset with
      | some r => .ok ⟨setPat self.patterns pat (some (e.update r))⟩
      | none => .error .assertionError
    else
      -- a present but empty RangeSet is falsy: fall through to the elif
      .ok (addElse self pat rangeset)
  | _ => .ok (addElse self pat rangeset)
where
  /-- the `elif rangeset: ... else: ...` tail of `_add`. -/
  addElse (self : NodeSetBase) (pat : String) (rangeset : Option RangeSet) :
      NodeSetBase :=
    match rangeset with
    | some r =>
      if r.truthy then ⟨setPat self.patterns pat (some r)⟩
      else ⟨setPat self.patterns pat none⟩
    | none => ⟨setPat self.patterns pat none⟩

/-- The loop of `update` over the other set's pattern items. -/
def updateGo (self : NodeSetBase) :
    List (String × Option RangeSet) → Except PyErr NodeSetBase
  | [] => .ok self
  | (p, v) :: t => do
    let s ← self._add p v
    s.updateGo t

/-- `update(other)`: add every (pattern, rangeset) item of `other`. -/
def update (self other : NodeSetBase) : Except PyErr NodeSetBase :=
  self.updateGo other.patterns

/-- `union(other)` = `self.copy()` then `update` (a copy is a value
identity in this model). -/
def union (self other : NodeSetBase) : Except PyErr NodeSetBase :=
  self.update other

/-- The `elif not irangeset and pat in self._patterns:` branch of
`intersection_update`, which the source states twice with identical
condition and body (lines 505-510). -/
def interElse (self tmp : NodeSetBase) (p : String) (iv : Option RangeSet) :
    Except PyErr NodeSetBase :=
  if !truthyO iv && memKey self.patterns p then tmp._add p none
  else if !truthyO iv && memKey self.patterns p then tmp._add p none
  else .ok tmp

/-- One iteration of the `intersection_update` loop (over an item
`(p, iv)` of the other set), building into `tmp`. -/
def interStep (self tmp : NodeSetBase) (p : String) (iv : Option RangeSet) :
    Except PyErr NodeSetBase :=
  match lookupPat self.patterns p with
  | some (some rs) =>
    if rs.truthy then
      match iv with
      | some irs =>
        -- rs = rangeset.copy(); rs.intersection_update(irangeset)
        let r := rs.intersection_update irs
        -- ignore pattern if empty rangeset
        if 0 < r.size then tmp._add p (some r) else .ok tmp
      | none =>
        -- rangeset.intersection_update(None) raises
        .error (.typeError "intersection_update argument is not a RangeSet")
    else interElse self tmp p iv
  | _ => interElse self tmp p iv

/-- The `intersection_update` loop over the other set's items. -/
def interGo (self tmp : NodeSetBase) :
    List (String × Option RangeSet) → Except PyErr NodeSetBase
  | [] => .ok tmp
  | (p, iv) :: t => do
    let tmp' ← interStep self tmp p iv
    interGo self tmp' t

/-- `intersection_update(other)` (source lines 485-513): build a fresh
`tmp_ns` from the other set's items and substitute it for `_patterns`.
The `other is self` early return of the source is an object-identity fast
path that a value model cannot observe; on inputs satisfying the data
model it returns the same value the loop builds. -/
def intersection_update (self other : NodeSetBase) : Except PyErr NodeSetBase :=
  interGo self ⟨[]⟩ other.patterns

/-- `intersection(other)` = copy + `intersection_update`. -/
def intersection (self other : NodeSetBase) : Except PyErr NodeSetBase :=
  self.intersection_update other

/-- `interElse` with the duplicated dead branch removed (single elif). -/
def interElseDedup (self tmp : NodeSetBase) (p : String) (iv : Option RangeSet) :
    Except PyErr NodeSetBase :=
  if !truthyO iv && memKey self.patterns p then tmp._add p none
  else .ok tmp

/-- `interStep` with the duplicated branch removed. -/
def interStepDedup (self tmp : NodeSetBase) (p : String) (iv : Option RangeSet) :
    Except PyErr NodeSetBase :=
  match lookupPat self.patterns p with
  | some (some rs) =>
    if rs.truthy then
      match iv with
      | some irs =>
        let r := rs.intersection_update irs
        if 0 < r.size then tmp._add p (some r) else .ok tmp
      | none =>
        .error (.typeError "intersection_update argument is not a RangeSet")
    else interElseDedup self tmp p iv
  | _ => interElseDedup self tmp p iv

/-- The dedup'd loop. -/
def interGoDedup (self tmp : NodeSetBase) :
    List (String × Option RangeSet) → Except PyErr NodeSetBase
  | [] => .ok tmp
  | (p, iv) :: t => do
    let tmp' ← interStepDedup self tmp p iv
    interGoDedup self tmp' t

/-- `intersection_update` with the duplicated `elif` branch removed. -/
def intersection_update_dedup (self other : NodeSetBase) :
    Except PyErr NodeSetBase :=
  interGoDedup self ⟨[]⟩ other.patterns

/-- One iteration of the `difference_update` loop over an item `(p, ev)` of
the exclude set; the state is the current patterns plus the deferred purge
list. -/
def diffStep (strict : Bool) (ns : NodeSetBase) (purge : List String)
    (p : String) (ev : Option RangeSet) :
    Except PyErr (NodeSetBase × List String) :=
  match lookupPat ns.patterns p with
  | some (some rs) =>
    if rs.truthy then
      match ev with
      | some ers => do
        -- sub rangeset in place, raise KeyError if strict and not found
        let rs' ← rs.difference_update ers strict
        let ps' := setPat ns.patterns p (some rs')
        -- check if no range left and add pattern to purge list
        .ok (⟨ps'⟩, if rs'.size = 0 then purge ++ [p] else purge)
      | none =>
        .error (.typeError "difference_update argument is not a RangeSet")
    else diffElse ns purge p strict
  | _ => diffElse ns purge p strict
where
  /-- the unnumbered-node / absent-key tail of the loop body. -/
  diffElse (ns : NodeSetBase) (purge : List String) (p : String)
      (strict : Bool) : Except PyErr (NodeSetBase × List String) :=
    if memKey ns.patterns p then .ok (ns, purge ++ [p])
    else if strict then .error (.keyError p)
    else .ok (ns, purge)

/-- The `difference_update` loop. -/
def diffGo (strict : Bool) (st : NodeSetBase × List String) :
    List (String × Option RangeSet) → Except PyErr (NodeSetBase × List String)
  | [] => .ok st
  | (p, ev) :: t => do
    let st' ← diffStep strict st.1 st.2 p ev
    diffGo strict st' t

/-- `difference_update(other, strict)` (source lines 542-571): remove the
other set's items, deferring the purge of emptied patterns to the end. -/
def difference_update (self other : NodeSetBase) (strict : Bool) :
    Except PyErr NodeSetBase := do
  let st ← diffGo strict (self, []) other.patterns
  .ok ⟨delPats st.1.patterns st.2⟩

/-- `remove(elem)` = `difference_update(elem, strict=True)`. -/
def remove (self elem : NodeSetBase) : Except PyErr NodeSetBase :=
  self.difference_update elem true

/-- `difference(other)` = copy + non-strict `difference_update`. -/
def difference (self other : NodeSetBase) : Except PyErr NodeSetBase :=
  self.difference_update other false

/-- First loop of `symmetric_difference_update` (source lines 617-624):
walk self's items; XOR the RangeSet in place when the other set shares the
(numbered) pattern, and put an unnumbered pattern present on both sides on
the purge list. Returns the rewritten patterns plus the purge keys. -/
def sdPhase1 (other : NodeSetBase) :
    List (String × Option RangeSet) →
    Except PyErr (List (String × Option RangeSet) × List String)
  | [] => .ok ([], [])
  | (p, v) :: t =>
    match lookupPat other.patterns p with
    | some (some brs) =>
      if brs.truthy then
        match v with
        | some rs => do
          let (rest, purge) ← sdPhase1 other t
          .ok ((p, some (rs.symmetric_difference_update brs)) :: rest, purge)
        | none =>
          -- rangeset.symmetric_difference_update(...) on a None value raises
          .error (.attributeError "symmetric_difference_update on None")
      else do
        -- present but falsy on the other side: has_key is true, purge
        let (rest, purge) ← sdPhase1 other t
        .ok ((p, v) :: rest, p :: purge)
    | some none => do
      let (rest, purge) ← sdPhase1 other t
      .ok ((p, v) :: rest, p :: purge)
    | none => do
      let (rest, purge) ← sdPhase1 other t
      .ok ((p, v) :: rest, purge)

/-- Second loop of `symmetric_difference_update` (source lines 627-630):
adopt the other set's patterns that are absent from self. -/
def sdPhase2 (ns : NodeSetBase) :
    List (String × Option RangeSet) → Except PyErr NodeSetBase
  | [] => .ok ns
  | (p, bv) :: t => do
    let ns' ← if (lookupPat ns.patterns p).isNone then ns._add p bv else .ok ns
    sdPhase2 ns' t

/-- Third loop (source lines 633-635): keys whose value is a present but
empty RangeSet. -/
def sdPurge (ps : List (String × Option RangeSet)) : List String :=
  (ps.filter (fun e => match e.2 with
    | some rs => rs.elems.isEmpty
    | none => false)).map (fun e => e.1)

/-- `symmetric_difference_update(other)` (source lines 609-639): two
passes, then purge every pattern collected in either pass. -/
def symmetric_difference_update (self other : NodeSetBase) :
    Except PyErr NodeSetBase := do
  let st ← sdPhase1 other self.patterns
  let ns2 ← sdPhase2 ⟨st.1⟩ other.patterns
  .ok ⟨delPats ns2.patterns (st.2 ++ sdPurge ns2.patterns)⟩

/-- `symmetric_difference(other)` = copy + in-place update. -/
def symmetric_difference (self other : NodeSetBase) : Except PyErr NodeSetBase :=
  self.symmetric_difference_update other

/-- One check of the `issuperset` loop for an item `(p, ev)` of the other
set (source lines 217-232). -/
def supStep (self : NodeSetBase) (p : String) (ev : Option RangeSet) :
    Except PyErr Bool :=
  match lookupPat self.patterns p with
  | some (some rs) =>
    if rs.truthy then
      match ev with
      | some ers => .ok (rs.issuperset ers)
      | none => .error (.typeError "issuperset argument is not a RangeSet")
    else .ok (memKey self.patterns p)
  | _ => .ok (memKey self.patterns p)

/-- The `issuperset` loop: break on the first failing item. -/
def supGo (self : NodeSetBase) :
    List (String × Option RangeSet) → Except PyErr Bool
  | [] => .ok true
  | (p, ev) :: t => do
    let st ← supStep self p ev
    if st then supGo self t else .ok false

/-- `issuperset(other)`. -/
def issuperset (self other : NodeSetBase) : Except PyErr Bool :=
  supGo self other.patterns

/-- `__eq__` between two NodeSetBases: equal length and mutual coverage
(`len(self) == len(other) and self.issuperset(other)`); the `and`
short-circuits. -/
def eq (self other : NodeSetBase) : Except PyErr Bool :=
  if self.len = other.len then self.issuperset other else .ok false

/-- `__str__` (source lines 162-177): templates in sorted order, each
substituted with its folded RangeSet (bracketed when it has more than one
member), joined with commas. -/
def toStr (self : NodeSetBase) : String :=
  String.intercalate "," ((sortPats self.patterns).map (fun e =>
    match e.2 with
    | some rs =>
      if rs.truthy then
        let s := rs.fold
        let s := if 1 < rs.size then "[" ++ s ++ "]" else s
        pyFormat e.1 s
      else e.1
    | none => e.1))

/-- `__iter__` (source lines 136-145): node strings, templates in sorted
order, indices ascending, numerals padded. -/
def iterNodes (self : NodeSetBase) : List String :=
  ((sortPats self.patterns).map (fun e =>
    match e.2 with
    | some rs => (sortNat rs.elems).map (fun i => pyFormat e.1 (padNum rs.padding i))
    | none => [e.1])).flatten

/-- The members of a set presented as (template, optional index) pairs —
one pair per node, used to state membership claims. -/
def nodeItems (self : NodeSetBase) : List (String × Option Nat) :=
  (self.patterns.map (fun e =>
    match e.2 with
    | some rs => rs.elems.map (fun i => (e.1, some i))
    | none => [(e.1, none)])).flatten

/-- Is one node (given as its template and optional index) a member?
This is the program's own template-wise containment (`__contains__` /
`issuperset` on a one-node set). -/
def memberNode (self : NodeSetBase) : String × Option Nat → Bool
  | (p, some i) =>
    match lookupPat self.patterns p with
    | some (some rs) => rs.elems.contains i
    | _ => false
  | (p, none) =>
    match lookupPat self.patterns p with
    | some none => true
    | _ => false

end NodeSetBase

/-- The kinds of index object `__getitem__` can receive. -/
inductive PyIndex where
  | int (i : Int)
  | slice (start stop step : Option Int)
  | notAnIndex
deriving Repr, DecidableEq

/-- `_extractslice` as declared in the source (lines 261-295): parameters
`(self, index)`; extracts `(sl_start, sl_stop, sl_step)` from a slice for a
sequence of `len(self)` elements. `sys.maxint` stands in for an unbounded
stop. -/
def NodeSetBase._extractslice (self : NodeSetBase) (index : PyIndex) :
    Except PyErr (Nat × Nat × Nat) :=
  match index with
  | .slice start stop step =>
    let length : Int := self.len
    let slStart : Int :=
      match start with
      | none => 0
      | some s => if s < 0 then max 0 (length + s) else s
    let slStop : Int :=
      match stop with
      | none => (2 : Int) ^ 62 - 1
      | some s => if s < 0 then max 0 (length + s) else s
    match step with
    | none => .ok (slStart.toNat, slStop.toNat, 1)
    | some st =>
      if st < 0 then
        if start.isSome || stop.isSome then
          .error (.indexError "illegal start and stop when negative step is used")
        else
          let stepmod := (length + (-st) - 1) % (-st)
          let slStart' := if 0 < stepmod then slStart + stepmod else slStart
          .ok (slStart'.toNat, slStop.toNat, (-st).toNat)
      else .ok (slStart.toNat, slStop.toNat, st.toNat)
  | _ => .error (.typeError "slice indices must be integers")

/-- The integer branch of `__getitem__`: walk the sorted patterns with a
running offset; a numbered hit renders `pat % rangeset[i:i+1]` (a
one-member sub-rangeset, so padding survives). -/
def NodeSetBase.getIdx : List (String × Option RangeSet) → Nat → Except PyErr String
  | [], _ => .error (.indexError "out of range")
  | (p, some rs) :: t, idx =>
    if idx < rs.size then
      match (sortNat rs.elems).get? idx with
      | some v => .ok (pyFormat p (padNum rs.padding v))
      | none => .error (.indexError "out of range")
    else NodeSetBase.getIdx t (idx - rs.size)
  | (p, none) :: t, idx =>
    if idx = 0 then .ok p else NodeSetBase.getIdx t (idx - 1)

/--
`__getitem__` (source lines 297-356). The slice branch executes
`self._extractslice(self, index)` — `_extractslice` takes two parameters
`(self, index)` but the call passes three arguments, so Python raises
`TypeError` before any element is extracted; the rest of the branch
(building `inst` per pattern) is unreachable. The integer branch indexes
the canonical order with negative-index wraparound.
-/
def NodeSetBase.getitem (self : NodeSetBase) (index : PyIndex) :
    Except PyErr (String ⊕ NodeSetBase) :=
  match index with
  | .slice _ _ _ =>
    .error (.typeError "_extractslice() takes exactly 2 arguments (3 given)")
  | .int i =>
    let length : Int := self.len
    if i < 0 then
      if -length ≤ i then
        (NodeSetBase.getIdx (sortPats self.patterns) (length + i).toNat).map .inl
      else .error (.indexError ((length + i).toNat.repr ++ " out of range"))
    else (NodeSetBase.getIdx (sortPats self.patterns) i.toNat).map .inl
  | .notAnIndex => .error (.typeError "NodeSet indices must be integers")

namespace NodeSet

/-- `NodeSet.__getitem__` wraps the base result in a `NodeSet` sharing the
resolver/autostep; errors propagate. The wrapper adds nothing a value model
can observe. -/
def getitem (self : NodeSetBase) (index : PyIndex) :
    Except PyErr (String ⊕ NodeSetBase) :=
  NodeSetBase.getitem self index

/-- The generator body of `split` (source lines 1093-1097), materialized:
`min(nbr, len(self))` iterations, the i-th yielding
`self[begin:begin + slice_size + (i < left)]`. -/
def splitGo (self : NodeSetBase) (sliceSize left : Nat) :
    Nat → Nat → Nat → Except PyErr (List NodeSetBase)
  | _, _, 0 => .ok []
  | i, beginPos, rem + 1 => do
    let length := sliceSize + (if i < left then 1 else 0)
    let sub ← NodeSet.getitem self
      (.slice (some (beginPos : Int)) (some ((beginPos + length : Nat) : Int)) none)
    let rest ← splitGo self sliceSize left (i + 1) (beginPos + length) rem
    match sub with
    | .inr ns => .ok (ns :: rest)
    | .inl _ => .error (.typeError "slice returned a string")

/-- `NodeSet.split(nbr)` (source lines 1076-1097): `assert(nbr > 0)`, then
yield ⌈equal⌉ slices of the canonical order. -/
def split (self : NodeSetBase) (nbr : Nat) : Except PyErr (List NodeSetBase) :=
  if nbr = 0 then .error .assertionError
  else splitGo self (self.len / nbr) (self.len % nbr) 0 0 (min nbr self.len)

end NodeSet

/-- The four extended-pattern operations (`OP_CODES` keys). -/
inductive OpCode where
  | update
  | difference_update
  | intersection_update
  | symmetric_difference_update
deriving Repr, DecidableEq

/-- `OP_CODES`: the operator character of each opcode. -/
def opChar : OpCode → Char
  | .update => ','
  | .difference_update => '!'
  | .intersection_update => '&'
  | .symmetric_difference_update => '^'

/-- `pat.lstrip()`. -/
def lstripC (l : List Char) : List Char := l.dropWhile Char.isWhitespace

/-- `pat.rstrip()`. -/
def rstripC (l : List Char) : List Char :=
  (l.reverse.dropWhile Char.isWhitespace).reverse

/-- `pat.strip()`. -/
def stripC (l : List Char) : List Char := rstripC (lstripC l)

/-- `pat.replace('%', '%%')` — the source first tests `pat.find('%') >= 0`,
but the replacement is the identity when no `%` occurs. -/
def escapePercent : List Char → List Char
  | [] => []
  | '%' :: t => '%' :: '%' :: escapePercent t
  | c :: t => c :: escapePercent t

/-- `s.split(c, 1)`: split at the first occurrence of `c`, or `None`. -/
def splitFirst (l : List Char) (c : Char) : Option (List Char × List Char) :=
  match l.findIdx? (· == c) with
  | none => none
  | some i => some (l.take i, l.drop (i + 1))

namespace ParsingEngine

/-- Accumulator for `_next_op` (source lines 745-754): keep the candidate
with the smaller index; the source iterates the `OP_CODES` dict in
unspecified order and replaces on `idx <= op_idx`, but two distinct
operator characters can never share an index, so the minimum is
well-defined. -/
def chooseOp (acc : Option (Nat × OpCode)) (cand : Option Nat × OpCode) :
    Option (Nat × OpCode) :=
  match cand.1 with
  | none => acc
  | some i =>
    match acc with
    | none => some (i, cand.2)
    | some (j, _) => if i ≤ j then some (i, cand.2) else acc

/-- `_next_op(pat)`: index and opcode of the first operator character, if
any. -/
def next_op (pat : List Char) : Option (Nat × OpCode) :=
  [(pat.findIdx? (· == ','), OpCode.update),
   (pat.findIdx? (· == '!'), OpCode.difference_update),
   (pat.findIdx? (· == '&'), OpCode.intersection_update),
   (pat.findIdx? (· == '^'), OpCode.symmetric_difference_update)].foldl
    chooseOp none

/-- `raise NodeSetParseRangeError(e)`: wrap a range parse failure, keeping
the offending substring in the message. -/
def wrapRangeErr : PyErr → PyErr
  | .rangeSetParseError part msg => .nodeSetParseRangeError (msg ++ " : " ++ part)
  | e => e

/-- Decomposition of a single node token by the regex
`(\D*)(\d*)(.*)` — greedy non-digits, then digits, then the rest. -/
def regexDecomp (node : List Char) :
    List Char × List Char × List Char :=
  let pfxl := node.takeWhile (fun c => !c.isDigit)
  let rest := node.drop pfxl.length
  let idx := rest.takeWhile Char.isDigit
  (pfxl, idx, rest.drop idx.length)

/-- Build the event for a single (bracketless) node token (source lines
817-843); `part` is the value `pat` holds at that point — the input
remainder after the operator, or `None` for the last term. -/
def nodeEvent (autostep : Option Nat) (opc : OpCode) (nodeL : List Char)
    (part : Option String) :
    Except PyErr (OpCode × String × Option RangeSet) :=
  let node := stripC nodeL
  if node.isEmpty then .error (.nodeSetParseError part "empty node name")
  else
    let dec := regexDecomp node
    let pfxl := dec.1
    let idx := dec.2.1
    let sfxl := dec.2.2
    if pfxl.length + sfxl.length = 0 then
      .error (.nodeSetParseError part "empty node name")
    else if idx.isEmpty then
      -- undefined pad means no node index
      .ok (opc, String.mk pfxl, none)
    else
      match RangeSet.parseChars idx autostep with
      | .error e => .error (wrapRangeErr e)
      | .ok rset =>
        .ok (opc, String.mk pfxl ++ "%s" ++ String.mk sfxl, some rset)

/--
`_scan_string`'s loop (source lines 765-843), with fuel for the loop count
(each iteration consumes at least one character of the remaining pattern,
so `length + 1` suffices). The scanner finds the next operator index and
the next `[` index; when the bracket comes first (or no operator remains),
the whole `[...]` range list belongs to the current term.
-/
def scanGo (autostep : Option Nat) :
    Nat → OpCode → List Char →
    Except PyErr (List (OpCode × String × Option RangeSet))
  | 0, _, _ => .error (.valueError "scan fuel exhausted")
  | fuel + 1, opc, pat0 =>
    let pat := lstripC pat0
    let opRes := next_op pat
    match pat.findIdx? (· == '[') with
    | some b =>
      if (match opRes with | none => true | some (oi, _) => b < oi) then
        -- a pattern of potentially several nodes: prefix [ range ] suffix
        let pfxl := pat.take b
        match splitFirst (pat.drop (b + 1)) ']' with
        | none => .error (.nodeSetParseError (some (String.mk pat)) "missing bracket")
        | some (rng, sfx0) =>
          match next_op sfx0 with
          | none =>
            let sfxl := rstripC sfx0
            if pfxl.length + sfxl.length = 0 then
              .error (.nodeSetParseError none "empty node name")
            else
              match RangeSet.parseChars rng autostep with
              | .error e => .error (wrapRangeErr e)
              | .ok rset =>
                .ok [(opc, String.mk pfxl ++ "%s" ++ String.mk sfxl, some rset)]
          | some (_, nop) =>
            match splitFirst sfx0 (opChar nop) with
            | none => .error (.valueError "operator vanished")
            | some (sfx1, patNext) =>
              let sfxl := rstripC sfx1
              if pfxl.length + sfxl.length = 0 then
                .error (.nodeSetParseError (some (String.mk patNext)) "empty node name")
              else
                match RangeSet.parseChars rng autostep with
                | .error e => .error (wrapRangeErr e)
                | .ok rset => do
                  let rest ← scanGo autostep fuel nop patNext
                  .ok ((opc, String.mk pfxl ++ "%s" ++ String.mk sfxl, some rset)
                        :: rest)
      else
        match opRes with
        | none => do
          let ev ← nodeEvent autostep opc pat none
          .ok [ev]
        | some (_, nop) =>
          match splitFirst pat (opChar nop) with
          | none => .error (.valueError "operator vanished")
          | some (nodeL, patNext) => do
            let ev ← nodeEvent autostep opc nodeL (some (String.mk patNext))
            let rest ← scanGo autostep fuel nop patNext
            .ok (ev :: rest)
    | none =>
      match opRes with
      | none => do
        let ev ← nodeEvent autostep opc pat none
        .ok [ev]
      | some (_, nop) =>
        match splitFirst pat (opChar nop) with
        | none => .error (.valueError "operator vanished")
        | some (nodeL, patNext) => do
          let ev ← nodeEvent autostep opc nodeL (some (String.mk patNext))
          let rest ← scanGo autostep fuel nop patNext
          .ok (ev :: rest)

/-- `_scan_string(nsstr, autostep)`: strip, escape `%`, then scan with the
initial opcode `update`. -/
def scan_string (nsstr : String) (autostep : Option Nat) :
    Except PyErr (List (OpCode × String × Option RangeSet)) :=
  let pat := escapePercent (stripC nsstr.data)
  scanGo autostep (pat.length + 1) OpCode.update pat

/-- `getattr(nodeset, opc)(...)`: dynamic dispatch on the opcode name. -/
def applyOp (opc : OpCode) (ns operand : NodeSetBase) :
    Except PyErr NodeSetBase :=
  match opc with
  | .update => ns.update operand
  | .difference_update => ns.difference_update operand false
  | .intersection_update => ns.intersection_update operand
  | .symmetric_difference_update => ns.symmetric_difference_update operand

/-- `NodeSetBase(pattern, rangeset)` — the constructor `_add`s the pair
into an empty set; a missing pattern with a rangeset is a `ValueError`. -/
def nsFromPat (pattern : String) (rangeset : Option RangeSet) :
    Except PyErr NodeSetBase :=
  if pattern ≠ "" then NodeSetBase._add ⟨[]⟩ pattern rangeset
  else if rangeset.isSome then .error (.valueError "missing pattern")
  else .ok ⟨[]⟩

/-- `parse_string(nsstr, autostep)` (source lines 702-724) with no group
resolver attached (`NOGROUP_RESOLVER`): every scanned event is applied in
order to the accumulated set; the `@group` expansion path needs a resolver
and is outside this model. -/
def parse_string (nsstr : String) (autostep : Option Nat) :
    Except PyErr NodeSetBase := do
  let evs ← scan_string nsstr autostep
  evs.foldlM (fun ns ev => do
    let operand ← nsFromPat ev.2.1 ev.2.2
    applyOp ev.1 ns operand) (⟨[]⟩ : NodeSetBase)

end ParsingEngine

example :
    (ParsingEngine.parse_string "node[0-10]^node[5-13]" none).map
      NodeSetBase.toStr = .ok "node[0-4,11-13]" := rfl
example :
    ParsingEngine.scan_string "node[1,5]" none =
      .ok [(OpCode.update, "node%s", some ⟨[1, 5], 0, none⟩)] := rfl
example :
    ParsingEngine.scan_string "[1-3]" none =
      .error (.nodeSetParseError none "empty node name") := rfl
example :
    ParsingEngine.scan_string "foo[1-3" none =
      .error (.nodeSetParseError (some "foo[1-3") "missing bracket") := rfl
example :
    ParsingEngine.scan_string "[1-3],foo" none =
      .error (.nodeSetParseError (some "foo") "empty node name") := rfl

/-- An argument of a dynamically typed binary operation: a `NodeSetBase`
or some non-NodeSet Python value. -/
inductive PyObj where
  | ns (x : NodeSetBase)
  | str (s : String)
  | int (i : Int)
deriving Repr, DecidableEq

/-- `isinstance(other, NodeSetBase)`. -/
def PyObj.isNodeSetBase : PyObj → Bool
  | .ns _ => true
  | _ => false

/-- The `TypeError` raised by `_binary_sanity_check` (source lines
203-208). -/
def binOpTypeError : PyErr :=
  .typeError "Binary operation only permitted between NodeSetBase"

namespace NodeSetBase

/-- `__eq__` with a dynamically typed operand: a non-NodeSetBase operand
yields `NotImplemented` (no exception); source lines 234-241. The result
is `none` for `NotImplemented`, `some b` for a boolean. -/
def eqObj (self : NodeSetBase) (other : PyObj) : Except PyErr (Option Bool) :=
  match other with
  | .ns o => (self.eq o).map some
  | _ => .ok none

/-- `issubset` with a dynamically typed operand (sanity check first). -/
def issubsetObj (self : NodeSetBase) (other : PyObj) : Except PyErr Bool :=
  match other with
  | .ns o => o.issuperset self
  | _ => .error binOpTypeError

/-- `issuperset` with a dynamically typed operand. -/
def issupersetObj (self : NodeSetBase) (other : PyObj) : Except PyErr Bool :=
  match other with
  | .ns o => self.issuperset o
  | _ => .error binOpTypeError

/-- `update` with a dynamically typed operand. -/
def updateObj (self : NodeSetBase) (other : PyObj) : Except PyErr NodeSetBase :=
  match other with
  | .ns o => self.update o
  | _ => .error binOpTypeError

/-- `intersection_update` with a dynamically typed operand. -/
def intersection_updateObj (self : NodeSetBase) (other : PyObj) :
    Except PyErr NodeSetBase :=
  match other with
  | .ns o => self.intersection_update o
  | _ => .error binOpTypeError

/-- `difference_update` with a dynamically typed operand. -/
def difference_updateObj (self : NodeSetBase) (other : PyObj) (strict : Bool) :
    Except PyErr NodeSetBase :=
  match other with
  | .ns o => self.difference_update o strict
  | _ => .error binOpTypeError

/-- `symmetric_difference_update` with a dynamically typed operand. -/
def symmetric_difference_updateObj (self : NodeSetBase) (other : PyObj) :
    Except PyErr NodeSetBase :=
  match other with
  | .ns o => self.symmetric_difference_update o
  | _ => .error binOpTypeError

/-- `__lt__`: `len(self) < len(other) and self.issubset(other)` after the
sanity check. -/
def ltObj (self : NodeSetBase) (other : PyObj) : Except PyErr Bool :=
  match other with
  | .ns o => if self.len < o.len then o.issuperset self else .ok false
  | _ => .error binOpTypeError

/-- `__gt__`: `len(self) > len(other) and self.issuperset(other)` after the
sanity check. -/
def gtObj (self : NodeSetBase) (other : PyObj) : Except PyErr Bool :=
  match other with
  | .ns o => if o.len < self.len then self.issuperset o else .ok false
  | _ => .error binOpTypeError

end NodeSetBase

/-- The example NodeSet `foo[1-5]` used as a concrete input. -/
def fooOneToFive : NodeSetBase := ⟨[("foo%s", some ⟨[1, 2, 3, 4, 5], 0, none⟩)]⟩

/--
C1. The claim says a slice `a[s]` returns a sub-NodeSetBase and obeys the
slice law. The code cannot: the slice branch of `__getitem__` calls
`self._extractslice(self, index)`, passing `self` to the bound method a
second time, so every slice access raises
`TypeError: _extractslice() takes exactly 2 arguments (3 given)` before any
member is selected. The theorem evaluates the code at a failing input for
every slice argument.
-/
theorem getitem_slice_always_typeerror (self : NodeSetBase)
    (start stop step : Option Int) :
    NodeSetBase.getitem self (.slice start stop step) =
      .error (.typeError "_extractslice() takes exactly 2 arguments (3 given)") :=
  rfl

/--
C2. The claim (and the source's own doctest) says
`NodeSet("foo[1-5]").split(3)` yields `foo[1-2]`, `foo[3-4]`, `foo5`; but
`split` slices `self[begin:begin + length]`, and every slice access raises
`TypeError` through the `_extractslice(self, index)` call (see C1), so the
generator fails on its first element.
-/
theorem split_foo15_typeerror :
    NodeSet.split fooOneToFive 3 =
      .error (.typeError "_extractslice() takes exactly 2 arguments (3 given)") :=
  rfl

/--
C3. Operator characters inside `[...]` belong to the range list: scanning
`node[1,5]` yields one `update` event whose RangeSet holds 1 and 5 (the
comma is not an expression operator), scanning `node[0-10]^node[5-13]`
yields exactly the two expected events applied left to right, and the
resulting set folds to `node[0-4,11-13]`.
-/
theorem scanner_brackets_shield_operators :
    ParsingEngine.scan_string "node[1,5]" none =
      .ok [(OpCode.update, "node%s", some ⟨[1, 5], 0, none⟩)] ∧
    ParsingEngine.scan_string "node[0-10]^node[5-13]" none =
      .ok [(OpCode.update, "node%s",
             some ⟨[0, 1, 2, 3, 4, 5, 6, 7, 8, 9, 10], 0, none⟩),
           (OpCode.symmetric_difference_update, "node%s",
             some ⟨[5, 6, 7, 8, 9, 10, 11, 12, 13], 0, none⟩)] ∧
    (ParsingEngine.parse_string "node[0-10]^node[5-13]" none).map
      NodeSetBase.toStr = .ok "node[0-4,11-13]" :=
  ⟨rfl, rfl, rfl⟩

/--
C4, counterexample. The claim says every parse error's `part` field carries
the offending substring. Parsing `"[1-3]"` fails with "empty node name" —
the offending term is `[1-3]` — but by the time the error is raised the
scanner has already set `pat` to `None` (the term is last), so the raised
error carries no substring at all: `part` is `None`.
-/
theorem parse_error_part_counterexample :
    ParsingEngine.scan_string "[1-3]" none =
      .error (.nodeSetParseError none "empty node name") :=
  rfl

/--
C4, amended. Missing `]` raises `NodeSetParseError` "missing bracket" and
an empty prefix+suffix raises `NodeSetParseError` "empty node name", as
claimed; but the `part` field carries the still-unparsed remainder of the
input at the moment of the raise — for "missing bracket" that remainder
still contains the offending term, while for "empty node name" it is the
text after the offending term (`None` when the term is last).
-/
theorem parse_error_part_amended :
    ParsingEngine.scan_string "foo[1-3" none =
      .error (.nodeSetParseError (some "foo[1-3") "missing bracket") ∧
    ParsingEngine.scan_string "[1-3]" none =
      .error (.nodeSetParseError none "empty node name") ∧
    ParsingEngine.scan_string "[1-3],foo" none =
      .error (.nodeSetParseError (some "foo") "empty node name") ∧
    ParsingEngine.scan_string "x,,y" none =
      .error (.nodeSetParseError (some "y") "empty node name") :=
  ⟨rfl, rfl, rfl, rfl⟩

/--
C10. Equality comparison with a non-NodeSetBase operand returns
`NotImplemented` (modelled as `.ok none`) instead of raising, while the
other binary operations — issubset, issuperset, update,
intersection_update, difference_update, symmetric_difference_update,
`<`, `>` — raise the `_binary_sanity_check` TypeError on such an operand.
-/
theorem eq_notimplemented_others_typeerror (a : NodeSetBase) (v : PyObj)
    (h : v.isNodeSetBase = false) :
    a.eqObj v = .ok none ∧
    a.issubsetObj v = .error binOpTypeError ∧
    a.issupersetObj v = .error binOpTypeError ∧
    a.updateObj v = .error binOpTypeError ∧
    a.intersection_updateObj v = .error binOpTypeError ∧
    (∀ strict, a.difference_updateObj v strict = .error binOpTypeError) ∧
    a.symmetric_difference_updateObj v = .error binOpTypeError ∧
    a.ltObj v = .error binOpTypeError ∧
    a.gtObj v = .error binOpTypeError := by
  cases v with
  | ns x => simp [PyObj.isNodeSetBase] at h
  | str s => exact ⟨rfl, rfl, rfl, rfl, rfl, fun _ => rfl, rfl, rfl, rfl⟩
  | int i => exact ⟨rfl, rfl, rfl, rfl, rfl, fun _ => rfl, rfl, rfl, rfl⟩

/-- Witness for C10 at the empty set and the string operand `"x"`. -/
theorem eq_notimplemented_others_typeerror_witness :
    NodeSetBase.eqObj ⟨[]⟩ (.str "x") = .ok none ∧
    NodeSetBase.issubsetObj ⟨[]⟩ (.str "x") = .error binOpTypeError ∧
    NodeSetBase.issupersetObj ⟨[]⟩ (.str "x") = .error binOpTypeError ∧
    NodeSetBase.updateObj ⟨[]⟩ (.str "x") = .error binOpTypeError ∧
    NodeSetBase.intersection_updateObj ⟨[]⟩ (.str "x") = .error binOpTypeError ∧
    (∀ strict, NodeSetBase.difference_updateObj ⟨[]⟩ (.str "x") strict =
      .error binOpTypeError) ∧
    NodeSetBase.symmetric_difference_updateObj ⟨[]⟩ (.str "x") =
      .error binOpTypeError ∧
    NodeSetBase.ltObj ⟨[]⟩ (.str "x") = .error binOpTypeError ∧
    NodeSetBase.gtObj ⟨[]⟩ (.str "x") = .error binOpTypeError :=
  eq_notimplemented_others_typeerror ⟨[]⟩ (.str "x") rfl

section Lemmas

theorem filter_not_contains_self (l : List Nat) :
    l.filter (fun y => !l.contains y) = [] := by
  rw [List.filter_eq_nil_iff]
  intro a ha
  simp [ha]

theorem filter_contains_self (l : List Nat) :
    l.filter (fun x => l.contains x) = l := by
  rw [List.filter_eq_self]
  intro a ha
  simp [ha]

theorem all_contains_self (l : List Nat) : l.all (fun x => l.contains x) = true := by
  rw [List.all_eq_true]
  intro a ha
  simp [ha]

theorem listUnion_self (l : List Nat) : listUnion l l = l := by
  simp [listUnion, filter_not_contains_self]

theorem RangeSet.update_self (r : RangeSet) : r.update r = r := by
  simp [RangeSet.update, listUnion_self]

theorem RangeSet.intersection_update_self (r : RangeSet) :
    r.intersection_update r = r := by
  unfold RangeSet.intersection_update
  rw [filter_contains_self]

theorem RangeSet.issuperset_self (r : RangeSet) : r.issuperset r = true := by
  simp [RangeSet.issuperset, all_contains_self]

theorem lookupPat_setPat_self (ps : List (String × Option RangeSet))
    (p : String) (v : Option RangeSet) :
    lookupPat (setPat ps p v) p = some v := by
  induction ps with
  | nil => simp [setPat, lookupPat]
  | cons e t ih =>
    obtain ⟨q, w⟩ := e
    by_cases h : q = p
    · simp [setPat, h, lookupPat]
    · simp [setPat, h, lookupPat, ih]

theorem lookupPat_setPat_ne (ps : List (String × Option RangeSet))
    (p q : String) (v : Option RangeSet) (h : p ≠ q) :
    lookupPat (setPat ps p v) q = lookupPat ps q := by
  induction ps with
  | nil => simp [setPat, lookupPat, h]
  | cons e t ih =>
    obtain ⟨r, w⟩ := e
    by_cases hr : r = p
    · subst hr
      simp [setPat, lookupPat, h]
    · simp [setPat, hr, lookupPat, ih]

theorem setPat_lookup_eq {ps : List (String × Option RangeSet)} {p : String}
    {v : Option RangeSet} (h : lookupPat ps p = some v) : setPat ps p v = ps := by
  induction ps with
  | nil => simp [lookupPat] at h
  | cons e t ih =>
    obtain ⟨q, w⟩ := e
    by_cases hq : q = p
    · subst hq
      simp [lookupPat] at h
      simp [setPat, h]
    · simp [lookupPat, hq] at h
      simp [setPat, hq, ih h]

theorem setPat_absent {ps : List (String × Option RangeSet)} {p : String}
    (v : Option RangeSet) (h : lookupPat ps p = none) :
    setPat ps p v = ps ++ [(p, v)] := by
  induction ps with
  | nil => simp [setPat]
  | cons e t ih =>
    obtain ⟨q, w⟩ := e
    by_cases hq : q = p
    · simp [lookupPat, hq] at h
    · simp [lookupPat, hq] at h
      simp [setPat, hq, ih h]

theorem mem_setPat {ps : List (String × Option RangeSet)} {p : String}
    {v : Option RangeSet} {e : String × Option RangeSet}
    (h : e ∈ setPat ps p v) : e = (p, v) ∨ e ∈ ps := by
  induction ps with
  | nil => simpa [setPat] using h
  | cons f t ih =>
    obtain ⟨q, w⟩ := f
    by_cases hq : q = p
    · simp [setPat, hq] at h
      rcases h with h | h
      · exact Or.inl h
      · exact Or.inr (List.mem_cons_of_mem _ h)
    · simp [setPat, hq] at h
      rcases h with h | h
      · exact Or.inr (by simp [h])
      · rcases ih h with h' | h'
        · exact Or.inl h'
        · exact Or.inr (List.mem_cons_of_mem _ h')

theorem lookupPat_append (xs ys : List (String × Option RangeSet)) (p : String) :
    lookupPat (xs ++ ys) p =
      match lookupPat xs p with
      | some v => some v
      | none => lookupPat ys p := by
  induction xs with
  | nil => simp [lookupPat]
  | cons e t ih =>
    obtain ⟨q, w⟩ := e
    by_cases hq : q = p
    · simp [lookupPat, hq]
    · simp [lookupPat, hq, ih]

theorem memKey_append (xs ys : List (String × Option RangeSet)) (p : String) :
    memKey (xs ++ ys) p = (memKey xs p || memKey ys p) := by
  simp only [memKey, lookupPat_append]
  cases lookupPat xs p <;> simp

theorem mem_memKey {ps : List (String × Option RangeSet)} {p : String}
    {v : Option RangeSet} (h : (p, v) ∈ ps) : memKey ps p = true := by
  induction ps with
  | nil => simp at h
  | cons e t ih =>
    obtain ⟨q, w⟩ := e
    rcases List.mem_cons.mp h with h' | h'
    · obtain ⟨h1, h2⟩ := Prod.mk.injEq .. ▸ h'
      simp [memKey, lookupPat, h1.symm]
    · by_cases hq : q = p
      · simp [memKey, lookupPat, hq]
      · simpa [memKey, lookupPat, hq] using ih h'

theorem lookupPat_of_mem_nodup {ps : List (String × Option RangeSet)}
    {p : String} {v : Option RangeSet}
    (hn : NodeSetBase.keysNodup ps = true) (h : (p, v) ∈ ps) :
    lookupPat ps p = some v := by
  induction ps with
  | nil => simp at h
  | cons e t ih =>
    obtain ⟨q, w⟩ := e
    simp only [NodeSetBase.keysNodup, Bool.and_eq_true, Bool.not_eq_true'] at hn
    rcases List.mem_cons.mp h with h' | h'
    · obtain ⟨h1, h2⟩ := Prod.mk.injEq .. ▸ h'
      simp [lookupPat, h1.symm, h2]
    · by_cases hq : q = p
      · subst hq
        exact absurd (mem_memKey h') (by simp [hn.1])
      · simpa [lookupPat, hq] using ih hn.2 h'

theorem keysNodup_append_disjoint {l₁ l₂ : List (String × Option RangeSet)}
    (h : NodeSetBase.keysNodup (l₁ ++ l₂) = true) {p : String}
    {v : Option RangeSet} (hm : (p, v) ∈ l₂) : memKey l₁ p = false := by
  induction l₁ with
  | nil => simp [memKey, lookupPat]
  | cons e t ih =>
    obtain ⟨q, w⟩ := e
    simp only [List.cons_append, NodeSetBase.keysNodup, Bool.and_eq_true,
      Bool.not_eq_true', List.append_eq] at h
    by_cases hq : q = p
    · subst hq
      have : memKey (t ++ l₂) q = true := by
        rw [memKey_append]
        simp [mem_memKey hm]
      rw [this] at h
      exact absurd h.1 (by simp)
    · simpa [memKey, lookupPat, hq] using ih h.2

theorem keysNodup_of_append {l₁ l₂ : List (String × Option RangeSet)}
    (h : NodeSetBase.keysNodup (l₁ ++ l₂) = true) :
    NodeSetBase.keysNodup l₂ = true := by
  induction l₁ with
  | nil => simpa using h
  | cons e t ih =>
    obtain ⟨q, w⟩ := e
    simp only [List.cons_append, NodeSetBase.keysNodup, Bool.and_eq_true] at h
    exact ih h.2

end Lemmas

section IdempotenceLemmas

theorem memKey_false_iff (ps : List (String × Option RangeSet)) (p : String) :
    memKey ps p = false ↔ lookupPat ps p = none := by
  unfold memKey
  cases h : lookupPat ps p <;> simp

theorem wf_parts {a : NodeSetBase} (h : a.wf = true) :
    NodeSetBase.keysNodup a.patterns = true ∧ a.noEmpty = true ∧
      a.slotOk = true := by
  simpa [NodeSetBase.wf, Bool.and_eq_true, and_assoc] using h

theorem noEmpty_mem {a : NodeSetBase} (h : a.noEmpty = true) {p : String}
    {rs : RangeSet} (hm : (p, some rs) ∈ a.patterns) : rs.truthy = true := by
  have := List.all_eq_true.mp h _ hm
  simpa using this

theorem RangeSet.size_pos_of_truthy {rs : RangeSet} (h : rs.truthy = true) :
    0 < rs.size := by
  unfold RangeSet.truthy at h
  unfold RangeSet.size
  cases he : rs.elems with
  | nil => rw [he] at h; simp at h
  | cons x t => simp [he]

theorem updateGo_self {a : NodeSetBase}
    (hn : NodeSetBase.keysNodup a.patterns = true) (hne : a.noEmpty = true) :
    ∀ l, (∀ e ∈ l, e ∈ a.patterns) → NodeSetBase.updateGo a l = .ok a := by
  intro l
  induction l with
  | nil => intro _; rfl
  | cons e t ih =>
    intro hsub
    obtain ⟨p, v⟩ := e
    have hmem : (p, v) ∈ a.patterns := hsub _ (by simp)
    have hlk : lookupPat a.patterns p = some v := lookupPat_of_mem_nodup hn hmem
    have hadd : a._add p v = .ok a := by
      cases v with
      | some rs =>
        have ht : rs.truthy := noEmpty_mem hne hmem
        simp [NodeSetBase._add, hlk, ht, RangeSet.update_self,
          setPat_lookup_eq hlk]
      | none =>
        simp [NodeSetBase._add, hlk, NodeSetBase._add.addElse,
          setPat_lookup_eq hlk]
    have hbind : NodeSetBase.updateGo a ((p, v) :: t) =
        Except.bind (a._add p v) (fun s => NodeSetBase.updateGo s t) := rfl
    rw [hbind, hadd]
    exact ih (fun e he => hsub e (List.mem_cons_of_mem _ he))

theorem interGo_self {a : NodeSetBase}
    (hn : NodeSetBase.keysNodup a.patterns = true) (hne : a.noEmpty = true) :
    ∀ l₂ l₁, a.patterns = l₁ ++ l₂ →
      NodeSetBase.interGo a ⟨l₁⟩ l₂ = .ok a := by
  intro l₂
  induction l₂ with
  | nil =>
    intro l₁ heq
    simp [NodeSetBase.interGo]
    rw [show l₁ = a.patterns by simp [heq]]
  | cons e t ih =>
    intro l₁ heq
    obtain ⟨p, iv⟩ := e
    have hmem : (p, iv) ∈ a.patterns := by rw [heq]; simp
    have hlk : lookupPat a.patterns p = some iv := lookupPat_of_mem_nodup hn hmem
    have habs : lookupPat l₁ p = none := by
      rw [← memKey_false_iff]
      exact keysNodup_append_disjoint (heq ▸ hn)
        (show (p, iv) ∈ (p, iv) :: t by simp)
    have hstep : NodeSetBase.interStep a ⟨l₁⟩ p iv =
        .ok ⟨l₁ ++ [(p, iv)]⟩ := by
      cases iv with
      | some rs =>
        have ht : rs.truthy := noEmpty_mem hne hmem
        have hpos : 0 < rs.size := RangeSet.size_pos_of_truthy ht
        have hsz : 0 < (rs.intersection_update rs).size := by
          rw [RangeSet.intersection_update_self]; exact hpos
        simp [NodeSetBase.interStep, hlk, ht, RangeSet.intersection_update_self,
          hpos, NodeSetBase._add, habs, NodeSetBase._add.addElse,
          setPat_absent _ habs]
      | none =>
        have hmk : memKey a.patterns p = true := by simp [memKey, hlk]
        simp [NodeSetBase.interStep, hlk, NodeSetBase.interElse, truthyO, hmk,
          NodeSetBase._add, habs, NodeSetBase._add.addElse,
          setPat_absent _ habs]
    have hbind : NodeSetBase.interGo a ⟨l₁⟩ ((p, iv) :: t) =
        Except.bind (NodeSetBase.interStep a ⟨l₁⟩ p iv)
          (fun tmp => NodeSetBase.interGo a tmp t) := rfl
    rw [hbind, hstep]
    exact ih (l₁ ++ [(p, iv)]) (by rw [heq, List.append_assoc]; simp)

theorem supGo_self {a : NodeSetBase}
    (hn : NodeSetBase.keysNodup a.patterns = true) (hne : a.noEmpty = true) :
    ∀ l, (∀ e ∈ l, e ∈ a.patterns) → NodeSetBase.supGo a l = .ok true := by
  intro l
  induction l with
  | nil => intro _; rfl
  | cons e t ih =>
    intro hsub
    obtain ⟨p, ev⟩ := e
    have hmem : (p, ev) ∈ a.patterns := hsub _ (by simp)
    have hlk : lookupPat a.patterns p = some ev := lookupPat_of_mem_nodup hn hmem
    have hstep : NodeSetBase.supStep a p ev = .ok true := by
      cases ev with
      | some rs =>
        have ht : rs.truthy := noEmpty_mem hne hmem
        simp [NodeSetBase.supStep, hlk, ht, RangeSet.issuperset_self]
      | none =>
        have hmk : memKey a.patterns p = true := by simp [memKey, hlk]
        simp [NodeSetBase.supStep, hlk, hmk]
    have hbind : NodeSetBase.supGo a ((p, ev) :: t) =
        Except.bind (NodeSetBase.supStep a p ev)
          (fun st => if st then NodeSetBase.supGo a t else .ok false) := rfl
    rw [hbind, hstep]
    exact ih (fun e he => hsub e (List.mem_cons_of_mem _ he))

end IdempotenceLemmas

/--
C7. For a set satisfying the data-model invariants, union and intersection
with itself return the very same set value, and `==` (length equality plus
coverage) confirms it: `a.union(a) == a` and `a.intersection(a) == a`.
-/
theorem union_intersection_self_idempotent (a : NodeSetBase) (h : a.wf = true) :
    a.union a = .ok a ∧ a.intersection a = .ok a ∧ a.eq a = .ok true := by
  obtain ⟨hn, hne, _⟩ := wf_parts h
  refine ⟨?_, ?_, ?_⟩
  · exact updateGo_self hn hne a.patterns (fun e he => he)
  · exact interGo_self hn hne a.patterns [] rfl
  · have hsup : a.issuperset a = .ok true :=
      supGo_self hn hne a.patterns (fun e he => he)
    simp [NodeSetBase.eq, hsup]

/-- Witness for C7 at `foo[1-5]`. -/
theorem union_intersection_self_idempotent_witness :
    fooOneToFive.union fooOneToFive = .ok fooOneToFive ∧
    fooOneToFive.intersection fooOneToFive = .ok fooOneToFive ∧
    fooOneToFive.eq fooOneToFive = .ok true :=
  union_intersection_self_idempotent fooOneToFive (by decide)

section PurgeLemmas

theorem exceptBind_ok {ε α β : Type} {x : Except ε α} {f : α → Except ε β}
    {r : β} (h : Except.bind x f = .ok r) : ∃ s, x = .ok s ∧ f s = .ok r := by
  cases x with
  | error e => simp [Except.bind] at h
  | ok s => exact ⟨s, rfl, by simpa [Except.bind] using h⟩

theorem RangeSet.update_truthy {r s : RangeSet} (h : r.truthy = true) :
    (r.update s).truthy = true := by
  unfold RangeSet.truthy at *
  unfold RangeSet.update listUnion
  cases he : r.elems with
  | nil => rw [he] at h; simp at h
  | cons x t => simp [he]

theorem noEmpty_setPat {ps : List (String × Option RangeSet)}
    (h : NodeSetBase.noEmpty ⟨ps⟩ = true) {p : String} {v : Option RangeSet}
    (hv : ∀ rs, v = some rs → rs.truthy = true) :
    NodeSetBase.noEmpty ⟨setPat ps p v⟩ = true := by
  unfold NodeSetBase.noEmpty at *
  rw [List.all_eq_true] at *
  intro e he
  rcases mem_setPat he with he' | he'
  · subst he'
    cases hv2 : v with
    | some rs => simpa using hv rs hv2
    | none => simp
  · exact h e he'

theorem _add_noEmpty {a : NodeSetBase} (ha : a.noEmpty = true) (p : String)
    (v : Option RangeSet) :
    ∀ r, a._add p v = .ok r → r.noEmpty = true := by
  intro r hr
  unfold NodeSetBase._add at hr
  split at hr
  case h_1 e heq =>
    split at hr
    case isTrue ht =>
      cases v with
      | some rr =>
        simp only [Except.ok.injEq] at hr
        subst hr
        exact noEmpty_setPat ha (by
          intro rs hrs
          cases hrs
          exact RangeSet.update_truthy ht)
      | none => simp at hr
    case isFalse ht =>
      simp only [Except.ok.injEq] at hr
      subst hr
      unfold NodeSetBase._add.addElse
      cases v with
      | some rr =>
        by_cases htr : rr.truthy
        · simp only [htr, if_true]
          exact noEmpty_setPat ha (by intro rs hrs; cases hrs; exact htr)
        · simp only [htr, Bool.false_eq_true, if_false]
          exact noEmpty_setPat ha (by intro rs hrs; cases hrs)
      | none => exact noEmpty_setPat ha (by intro rs hrs; cases hrs)
  case h_2 heq =>
    simp only [Except.ok.injEq] at hr
    subst hr
    unfold NodeSetBase._add.addElse
    cases v with
    | some rr =>
      by_cases htr : rr.truthy
      · simp only [htr, if_true]
        exact noEmpty_setPat ha (by intro rs hrs; cases hrs; exact htr)
      · simp only [htr, Bool.false_eq_true, if_false]
        exact noEmpty_setPat ha (by intro rs hrs; cases hrs)
    | none => exact noEmpty_setPat ha (by intro rs hrs; cases hrs)

theorem updateGo_noEmpty :
    ∀ (l : List (String × Option RangeSet)) (a : NodeSetBase),
      a.noEmpty = true →
      ∀ r, NodeSetBase.updateGo a l = .ok r → r.noEmpty = true := by
  intro l
  induction l with
  | nil =>
    intro a ha r hr
    cases hr
    exact ha
  | cons e t ih =>
    intro a ha r hr
    obtain ⟨p, v⟩ := e
    have hb : NodeSetBase.updateGo a ((p, v) :: t) =
        Except.bind (a._add p v) (fun s => NodeSetBase.updateGo s t) := rfl
    rw [hb] at hr
    obtain ⟨s, hs, hrest⟩ := exceptBind_ok hr
    exact ih s (_add_noEmpty ha p v s hs) r hrest

end PurgeLemmas

section PurgeLemmas2

theorem interElse_noEmpty {a tmp : NodeSetBase} (h : tmp.noEmpty = true)
    {p : String} {iv : Option RangeSet} :
    ∀ r, NodeSetBase.interElse a tmp p iv = .ok r → r.noEmpty = true := by
  intro r hr
  unfold NodeSetBase.interElse at hr
  split at hr
  · exact _add_noEmpty h p none r hr
  · cases hr
    exact h

theorem interStep_noEmpty {a tmp : NodeSetBase} (h : tmp.noEmpty = true)
    {p : String} {iv : Option RangeSet} :
    ∀ r, NodeSetBase.interStep a tmp p iv = .ok r → r.noEmpty = true := by
  intro r hr
  unfold NodeSetBase.interStep at hr
  split at hr
  case h_1 rs heq =>
    split at hr
    case isTrue ht =>
      cases iv with
      | some irs =>
        simp only at hr
        split at hr
        · exact _add_noEmpty h p _ r hr
        · cases hr
          exact h
      | none => simp at hr
    case isFalse ht => exact interElse_noEmpty h r hr
  case h_2 heq => exact interElse_noEmpty h r hr

theorem interGo_noEmpty (a : NodeSetBase) :
    ∀ (l : List (String × Option RangeSet)) (tmp : NodeSetBase),
      tmp.noEmpty = true →
      ∀ r, NodeSetBase.interGo a tmp l = .ok r → r.noEmpty = true := by
  intro l
  induction l with
  | nil =>
    intro tmp htmp r hr
    cases hr
    exact htmp
  | cons e t ih =>
    intro tmp htmp r hr
    obtain ⟨p, iv⟩ := e
    have hb : NodeSetBase.interGo a tmp ((p, iv) :: t) =
        Except.bind (NodeSetBase.interStep a tmp p iv)
          (fun tmp' => NodeSetBase.interGo a tmp' t) := rfl
    rw [hb] at hr
    obtain ⟨s, hs, hrest⟩ := exceptBind_ok hr
    exact ih s (interStep_noEmpty htmp s hs) r hrest

/-- The deferred-purge invariant carried through `difference_update`: any
pattern currently mapping to an empty RangeSet is already scheduled for
deletion. -/
def purgeInv (ns : NodeSetBase) (purge : List String) : Prop :=
  ∀ p rs, (p, some rs) ∈ ns.patterns → rs.elems = [] → p ∈ purge

theorem purgeInv_of_noEmpty {a : NodeSetBase} (h : a.noEmpty = true) :
    purgeInv a [] := by
  intro p rs hm he
  have := noEmpty_mem h hm
  rw [RangeSet.truthy, he] at this
  simp at this

theorem purgeInv_mono {ns : NodeSetBase} {purge purge' : List String}
    (hsub : ∀ q, q ∈ purge → q ∈ purge') (h : purgeInv ns purge) :
    purgeInv ns purge' :=
  fun p rs hm he => hsub p (h p rs hm he)

theorem diffElse_inv {ns : NodeSetBase} {purge : List String} {p : String}
    {strict : Bool} (h : purgeInv ns purge) :
    ∀ st', NodeSetBase.diffStep.diffElse ns purge p strict = .ok st' →
      purgeInv st'.1 st'.2 := by
  intro st' hr
  unfold NodeSetBase.diffStep.diffElse at hr
  split at hr
  · cases hr
    exact purgeInv_mono (fun q hq => by simp [hq]) h
  · split at hr
    · cases hr
    · cases hr
      exact h

theorem diffStep_inv {strict : Bool} {ns : NodeSetBase} {purge : List String}
    {p : String} {ev : Option RangeSet} (h : purgeInv ns purge) :
    ∀ st', NodeSetBase.diffStep strict ns purge p ev = .ok st' →
      purgeInv st'.1 st'.2 := by
  intro st' hr
  unfold NodeSetBase.diffStep at hr
  split at hr
  case h_1 rs heq =>
    split at hr
    case isTrue ht =>
      cases ev with
      | some ers =>
        simp only at hr
        obtain ⟨rs', hrs', hrest⟩ := exceptBind_ok hr
        simp only [Except.ok.injEq] at hrest
        subst hrest
        intro q qrs hm he
        rcases mem_setPat hm with hm' | hm'
        · have h1 : q = p := congrArg Prod.fst hm'
          have h2 : some qrs = some rs' := congrArg Prod.snd hm'
          have h3 : qrs = rs' := Option.some.inj h2
          subst h1
          have : rs'.size = 0 := by
            rw [RangeSet.size, ← h3, he]
            rfl
          simp [this]
        · have := h q qrs hm' he
          split <;> simp [this]
      | none => simp at hr
    case isFalse ht => exact diffElse_inv h st' hr
  case h_2 heq => exact diffElse_inv h st' hr

theorem diffGo_inv {strict : Bool} :
    ∀ (l : List (String × Option RangeSet)) (st : NodeSetBase × List String),
      purgeInv st.1 st.2 →
      ∀ st', NodeSetBase.diffGo strict st l = .ok st' → purgeInv st'.1 st'.2 := by
  intro l
  induction l with
  | nil =>
    intro st h st' hr
    cases hr
    exact h
  | cons e t ih =>
    intro st h st' hr
    obtain ⟨p, ev⟩ := e
    have hb : NodeSetBase.diffGo strict st ((p, ev) :: t) =
        Except.bind (NodeSetBase.diffStep strict st.1 st.2 p ev)
          (fun st2 => NodeSetBase.diffGo strict st2 t) := rfl
    rw [hb] at hr
    obtain ⟨s, hs, hrest⟩ := exceptBind_ok hr
    exact ih s (diffStep_inv h s hs) st' hrest

theorem delPats_noEmpty {ps : List (String × Option RangeSet)}
    {purge : List String} (h : purgeInv ⟨ps⟩ purge) :
    NodeSetBase.noEmpty ⟨delPats ps purge⟩ = true := by
  unfold NodeSetBase.noEmpty delPats
  rw [List.all_eq_true]
  intro e he
  obtain ⟨hmem, hkeep⟩ := List.mem_filter.mp he
  cases h2 : e.2 with
  | none => simp
  | some rs =>
    simp only
    rw [RangeSet.truthy]
    cases hel : rs.elems with
    | cons x t => simp
    | nil =>
      obtain ⟨p, v⟩ := e
      simp only at h2
      subst h2
      have hp : p ∈ purge := h p rs hmem hel
      rw [Bool.not_eq_true'] at hkeep
      simp at hkeep
      exact absurd hp hkeep

/-- Every entry surviving `delPats ps (purge1 ++ sdPurge ps)` is non-empty:
the third loop of `symmetric_difference_update` schedules every
empty-RangeSet key. -/
theorem sd_final_noEmpty (purge1 : List String)
    (ps : List (String × Option RangeSet)) :
    NodeSetBase.noEmpty ⟨delPats ps (purge1 ++ NodeSetBase.sdPurge ps)⟩ = true := by
  apply delPats_noEmpty
  intro p rs hm he
  rw [List.mem_append]
  right
  unfold NodeSetBase.sdPurge
  rw [List.mem_map]
  refine ⟨(p, some rs), ?_, rfl⟩
  rw [List.mem_filter]
  refine ⟨hm, ?_⟩
  simp [he]

end PurgeLemmas2

/-- A second concrete example set, mixing a numbered template with an
unnumbered node. -/
def mixedExample : NodeSetBase :=
  ⟨[("bar%s", some ⟨[1, 2], 0, none⟩), ("solo", none)]⟩

/--
C5. For operands satisfying the data-model invariants, whenever `update`,
`intersection_update`, `difference_update` (either strictness) or
`symmetric_difference_update` completes, no template of the result maps to
an empty RangeSet: every key whose RangeSet becomes empty during the
operation has been purged by the end.
-/
theorem ops_purge_empty_rangesets (a b : NodeSetBase) (ha : a.wf = true)
    (_hb : b.wf = true) :
    (∀ r, a.update b = .ok r → r.noEmpty = true) ∧
    (∀ r, a.intersection_update b = .ok r → r.noEmpty = true) ∧
    (∀ strict r, a.difference_update b strict = .ok r → r.noEmpty = true) ∧
    (∀ r, a.symmetric_difference_update b = .ok r → r.noEmpty = true) := by
  obtain ⟨hn, hne, hsl⟩ := wf_parts ha
  refine ⟨?_, ?_, ?_, ?_⟩
  · intro r hr
    exact updateGo_noEmpty b.patterns a hne r hr
  · intro r hr
    exact interGo_noEmpty a b.patterns ⟨[]⟩ rfl r hr
  · intro strict r hr
    have hb2 : NodeSetBase.difference_update a b strict =
        Except.bind (NodeSetBase.diffGo strict (a, []) b.patterns)
          (fun st => .ok ⟨delPats st.1.patterns st.2⟩) := rfl
    rw [hb2] at hr
    obtain ⟨st, hst, hout⟩ := exceptBind_ok hr
    cases hout
    exact delPats_noEmpty
      (diffGo_inv b.patterns (a, []) (purgeInv_of_noEmpty hne) st hst)
  · intro r hr
    have hb2 : NodeSetBase.symmetric_difference_update a b =
        Except.bind (NodeSetBase.sdPhase1 b a.patterns)
          (fun st => Except.bind (NodeSetBase.sdPhase2 ⟨st.1⟩ b.patterns)
            (fun ns2 => .ok
              ⟨delPats ns2.patterns
                (st.2 ++ NodeSetBase.sdPurge ns2.patterns)⟩)) := rfl
    rw [hb2] at hr
    obtain ⟨st, hst, h2⟩ := exceptBind_ok hr
    obtain ⟨ns2, hns2, hout⟩ := exceptBind_ok h2
    cases hout
    exact sd_final_noEmpty st.2 ns2.patterns

/-- Witness for C5 at `foo[1-5]` and `bar[1-2],solo`. -/
theorem ops_purge_empty_rangesets_witness :
    (∀ r, fooOneToFive.update mixedExample = .ok r → r.noEmpty = true) ∧
    (∀ r, fooOneToFive.intersection_update mixedExample = .ok r →
      r.noEmpty = true) ∧
    (∀ strict r, fooOneToFive.difference_update mixedExample strict = .ok r →
      r.noEmpty = true) ∧
    (∀ r, fooOneToFive.symmetric_difference_update mixedExample = .ok r →
      r.noEmpty = true) :=
  ops_purge_empty_rangesets fooOneToFive mixedExample (by decide) (by decide)

section DupBranchLemmas

theorem interElse_eq_dedup (self tmp : NodeSetBase) (p : String)
    (iv : Option RangeSet) :
    NodeSetBase.interElse self tmp p iv =
      NodeSetBase.interElseDedup self tmp p iv := by
  unfold NodeSetBase.interElse NodeSetBase.interElseDedup
  by_cases h : (!truthyO iv && memKey self.patterns p) = true
  · simp [h]
  · simp [h]

theorem interStep_eq_dedup (self tmp : NodeSetBase) (p : String)
    (iv : Option RangeSet) :
    NodeSetBase.interStep self tmp p iv =
      NodeSetBase.interStepDedup self tmp p iv := by
  unfold NodeSetBase.interStep NodeSetBase.interStepDedup
  simp only [interElse_eq_dedup]

theorem interGo_eq_dedup (self : NodeSetBase) :
    ∀ (l : List (String × Option RangeSet)) (tmp : NodeSetBase),
      NodeSetBase.interGo self tmp l = NodeSetBase.interGoDedup self tmp l := by
  intro l
  induction l with
  | nil => intro tmp; rfl
  | cons e t ih =>
    intro tmp
    obtain ⟨p, iv⟩ := e
    show Except.bind (NodeSetBase.interStep self tmp p iv)
        (fun tmp' => NodeSetBase.interGo self tmp' t) =
      Except.bind (NodeSetBase.interStepDedup self tmp p iv)
        (fun tmp' => NodeSetBase.interGoDedup self tmp' t)
    rw [← interStep_eq_dedup]
    cases NodeSetBase.interStep self tmp p iv with
    | error e => rfl
    | ok s => simpa [Except.bind] using ih s

theorem _add_exists_setPat {tmp : NodeSetBase} {q : String}
    {v : Option RangeSet} {r : NodeSetBase} (h : tmp._add q v = .ok r) :
    ∃ v', r.patterns = setPat tmp.patterns q v' := by
  unfold NodeSetBase._add at h
  split at h
  · split at h
    · cases v with
      | some rr =>
        simp only [Except.ok.injEq] at h
        subst h
        exact ⟨_, rfl⟩
      | none => simp at h
    · simp only [Except.ok.injEq] at h
      subst h
      unfold NodeSetBase._add.addElse
      cases v with
      | some rr =>
        by_cases ht : rr.truthy
        · simp only [ht, if_true]
          exact ⟨_, rfl⟩
        · simp only [ht, Bool.false_eq_true, if_false]
          exact ⟨_, rfl⟩
      | none => exact ⟨_, rfl⟩
  · simp only [Except.ok.injEq] at h
    subst h
    unfold NodeSetBase._add.addElse
    cases v with
    | some rr =>
      by_cases ht : rr.truthy
      · simp only [ht, if_true]
        exact ⟨_, rfl⟩
      · simp only [ht, Bool.false_eq_true, if_false]
        exact ⟨_, rfl⟩
    | none => exact ⟨_, rfl⟩

theorem interStep_preserve {a tmp : NodeSetBase} {q : String}
    {iv : Option RangeSet} {r : NodeSetBase} {p : String} (hq : q ≠ p)
    (h : NodeSetBase.interStep a tmp q iv = .ok r) :
    lookupPat r.patterns p = lookupPat tmp.patterns p := by
  have hElse : ∀ r', NodeSetBase.interElse a tmp q iv = .ok r' →
      lookupPat r'.patterns p = lookupPat tmp.patterns p := by
    intro r' h'
    unfold NodeSetBase.interElse at h'
    split at h'
    · obtain ⟨v', hv'⟩ := _add_exists_setPat h'
      rw [hv', lookupPat_setPat_ne _ _ _ _ hq]
    · cases h'
      rfl
  unfold NodeSetBase.interStep at h
  split at h
  case h_1 rs heq =>
    split at h
    case isTrue ht =>
      cases iv with
      | some irs =>
        simp only at h
        split at h
        · obtain ⟨v', hv'⟩ := _add_exists_setPat h
          rw [hv', lookupPat_setPat_ne _ _ _ _ hq]
        · cases h
          rfl
      | none => simp at h
    case isFalse ht => exact hElse r h
  case h_2 heq => exact hElse r h

theorem memKey_false_ne {ps : List (String × Option RangeSet)} {p : String}
    (h : memKey ps p = false) : ∀ e ∈ ps, e.1 ≠ p := by
  intro e he hc
  obtain ⟨q, v⟩ := e
  simp only at hc
  subst hc
  rw [mem_memKey he] at h
  cases h

theorem interGo_preserves_other {a : NodeSetBase} {p : String} :
    ∀ (l : List (String × Option RangeSet)) (tmp r : NodeSetBase),
      (∀ e ∈ l, e.1 ≠ p) → NodeSetBase.interGo a tmp l = .ok r →
      lookupPat r.patterns p = lookupPat tmp.patterns p := by
  intro l
  induction l with
  | nil =>
    intro tmp r _ hr
    cases hr
    rfl
  | cons e t ih =>
    intro tmp r hne hr
    obtain ⟨q, iv⟩ := e
    have hb : NodeSetBase.interGo a tmp ((q, iv) :: t) =
        Except.bind (NodeSetBase.interStep a tmp q iv)
          (fun tmp' => NodeSetBase.interGo a tmp' t) := rfl
    rw [hb] at hr
    obtain ⟨s, hs, hrest⟩ := exceptBind_ok hr
    have h1 := interStep_preserve (hne (q, iv) (by simp)) hs
    have h2 := ih s r (fun e he => hne e (List.mem_cons_of_mem _ he)) hrest
    rw [h2, h1]

theorem lookup_split {ps : List (String × Option RangeSet)} {p : String}
    {v : Option RangeSet} (h : lookupPat ps p = some v) :
    ∃ l₁ l₂, ps = l₁ ++ (p, v) :: l₂ ∧ memKey l₁ p = false := by
  induction ps with
  | nil => simp [lookupPat] at h
  | cons e t ih =>
    obtain ⟨q, w⟩ := e
    by_cases hq : q = p
    · subst hq
      have hw : w = v := by simpa [lookupPat] using h
      subst hw
      exact ⟨[], t, rfl, rfl⟩
    · simp only [lookupPat, if_neg hq] at h
      obtain ⟨l₁, l₂, heq, hmk⟩ := ih h
      refine ⟨(q, w) :: l₁, l₂, by rw [heq]; rfl, ?_⟩
      simpa [memKey, lookupPat, hq] using hmk

theorem interGo_append (a : NodeSetBase) :
    ∀ (l₁ l₂ : List (String × Option RangeSet)) (tmp : NodeSetBase),
      NodeSetBase.interGo a tmp (l₁ ++ l₂) =
        Except.bind (NodeSetBase.interGo a tmp l₁)
          (fun t => NodeSetBase.interGo a t l₂) := by
  intro l₁
  induction l₁ with
  | nil => intro l₂ tmp; rfl
  | cons e t ih =>
    intro l₂ tmp
    obtain ⟨q, iv⟩ := e
    show Except.bind (NodeSetBase.interStep a tmp q iv)
        (fun tmp' => NodeSetBase.interGo a tmp' (t ++ l₂)) = _
    cases hs : NodeSetBase.interStep a tmp q iv with
    | error e =>
      have hb : NodeSetBase.interGo a tmp ((q, iv) :: t) =
          Except.bind (NodeSetBase.interStep a tmp q iv)
            (fun tmp' => NodeSetBase.interGo a tmp' t) := rfl
      rw [hb, hs]
      rfl
    | ok s =>
      simp only [Except.bind]
      have hb : NodeSetBase.interGo a tmp ((q, iv) :: t) =
          Except.bind (NodeSetBase.interStep a tmp q iv)
            (fun tmp' => NodeSetBase.interGo a tmp' t) := rfl
      rw [hb, hs]
      simpa [Except.bind] using ih l₂ s

end DupBranchLemmas

/-- A one-entry example set holding a single unnumbered node. -/
def soloSet : NodeSetBase := ⟨[("solo", none)]⟩

/--
C8. The second of the two identical `elif` branches of
`intersection_update` is dead: the operation computes the same result with
the duplicate removed, for all operands; and a template held by both sides
with the ∅ value (an unnumbered node) survives the intersection.
-/
theorem intersection_duplicate_branch_dead :
    (∀ a b : NodeSetBase,
      a.intersection_update b = a.intersection_update_dedup b) ∧
    (∀ (a b : NodeSetBase) (p : String),
      NodeSetBase.keysNodup b.patterns = true →
      lookupPat a.patterns p = some none →
      lookupPat b.patterns p = some none →
      ∀ r, a.intersection_update b = .ok r →
        lookupPat r.patterns p = some none) := by
  constructor
  · intro a b
    exact interGo_eq_dedup a b.patterns ⟨[]⟩
  · intro a b p hnb hap hbp r hr
    obtain ⟨l₁, l₂, hsplit, hl₁⟩ := lookup_split hbp
    unfold NodeSetBase.intersection_update at hr
    rw [hsplit, interGo_append] at hr
    obtain ⟨t₁, h₁, hrest⟩ := exceptBind_ok hr
    have hbind : NodeSetBase.interGo a t₁ ((p, none) :: l₂) =
        Except.bind (NodeSetBase.interStep a t₁ p none)
          (fun tmp' => NodeSetBase.interGo a tmp' l₂) := rfl
    rw [hbind] at hrest
    obtain ⟨t₂, h₂, hrest₂⟩ := exceptBind_ok hrest
    -- before (p, ∅) is processed, the temporary set has no p entry
    have ht₁ : lookupPat t₁.patterns p = none := by
      have := interGo_preserves_other l₁ ⟨[]⟩ t₁ (memKey_false_ne hl₁) h₁
      simpa [lookupPat] using this
    -- processing (p, ∅) stores the ∅ entry
    have ht₂ : lookupPat t₂.patterns p = some none := by
      have hmk : memKey a.patterns p = true := by simp [memKey, hap]
      unfold NodeSetBase.interStep at h₂
      rw [hap] at h₂
      simp only at h₂
      unfold NodeSetBase.interElse at h₂
      rw [show truthyO none = false from rfl] at h₂
      simp only [Bool.not_false, Bool.true_and, hmk, if_true] at h₂
      unfold NodeSetBase._add at h₂
      rw [ht₁] at h₂
      simp only at h₂
      unfold NodeSetBase._add.addElse at h₂
      simp only [Except.ok.injEq] at h₂
      subst h₂
      exact lookupPat_setPat_self _ _ _
    -- the rest of the loop never touches key p
    have hl₂ : memKey l₂ p = false := by
      have h1 := keysNodup_of_append (hsplit ▸ hnb)
      simp only [NodeSetBase.keysNodup, Bool.and_eq_true, Bool.not_eq_true'] at h1
      exact h1.1
    have := interGo_preserves_other l₂ t₂ r (memKey_false_ne hl₂) hrest₂
    rw [this, ht₂]

/-- Witness for C8: the duplicate-free loop agrees on `soloSet`, and the
∅-valued template `solo` survives `soloSet ∩ soloSet`. -/
theorem intersection_duplicate_branch_dead_witness :
    NodeSetBase.intersection_update soloSet soloSet =
      NodeSetBase.intersection_update_dedup soloSet soloSet ∧
    lookupPat soloSet.patterns "solo" = some none :=
  ⟨intersection_duplicate_branch_dead.1 soloSet soloSet,
   intersection_duplicate_branch_dead.2 soloSet soloSet "solo" rfl rfl rfl
     soloSet rfl⟩

section StrictnessLemmas

theorem exceptBind_error {ε α β : Type} {x : Except ε α} {f : α → Except ε β}
    {e : ε} (h : Except.bind x f = .error e) :
    x = .error e ∨ ∃ s, x = .ok s ∧ f s = .error e := by
  cases x with
  | error e' =>
    simp only [Except.bind] at h
    have he : e' = e := by
      cases h
      rfl
    subst he
    exact Or.inl rfl
  | ok s => exact Or.inr ⟨s, rfl, by simpa [Except.bind] using h⟩

theorem lookup_mem {ps : List (String × Option RangeSet)} {p : String}
    {v : Option RangeSet} (h : lookupPat ps p = some v) : (p, v) ∈ ps := by
  induction ps with
  | nil => simp [lookupPat] at h
  | cons e t ih =>
    obtain ⟨q, w⟩ := e
    by_cases hq : q = p
    · subst hq
      have hw : w = v := by simpa [lookupPat] using h
      subst hw
      simp
    · simp only [lookupPat, if_neg hq] at h
      exact List.mem_cons_of_mem _ (ih h)

theorem slotOk_mem {a : NodeSetBase} (h : a.slotOk = true) {p : String}
    {v : Option RangeSet} (hm : (p, v) ∈ a.patterns) :
    (∀ rs, v = some rs → hasSlot p = true) ∧ (v = none → hasSlot p = false) := by
  have := List.all_eq_true.mp h _ hm
  constructor
  · intro rs hv
    subst hv
    simpa using this
  · intro hv
    subst hv
    simpa using this

/-- The shape the data model guarantees for one pattern entry. -/
def entryWF (e : String × Option RangeSet) : Prop :=
  match e.2 with
  | some rs => rs.truthy = true ∧ hasSlot e.1 = true
  | none => hasSlot e.1 = false

theorem wf_entry {b : NodeSetBase} (h : b.wf = true) :
    ∀ e ∈ b.patterns, entryWF e := by
  obtain ⟨_, hne, hsl⟩ := wf_parts h
  intro e he
  obtain ⟨p, v⟩ := e
  cases v with
  | some rs =>
    exact ⟨noEmpty_mem hne he, (slotOk_mem hsl he).1 rs rfl⟩
  | none => exact (slotOk_mem hsl he).2 rfl

/-- Does processing one exclude-entry of `other` against the original `a`
raise the strict missing-member error? -/
def badEntry (a : NodeSetBase) (e : String × Option RangeSet) : Prop :=
  match e.2 with
  | some ers =>
    match lookupPat a.patterns e.1 with
    | some (some rs) => ∃ x ∈ ers.elems, rs.elems.contains x = false
    | some none => False
    | none => True
  | none => lookupPat a.patterns e.1 = none

theorem rsDiff_strict_error {r other : RangeSet}
    (hbad : ∃ x ∈ other.elems, r.elems.contains x = false) :
    ∃ er, r.difference_update other true = .error (.keyError er) := by
  unfold RangeSet.difference_update
  cases hf : other.elems.find? (fun x => !r.elems.contains x) with
  | none =>
    rw [List.find?_eq_none] at hf
    obtain ⟨x, hx, hc⟩ := hbad
    have := hf x hx
    rw [hc] at this
    simp at this
  | some i => exact ⟨toString i, rfl⟩

theorem rsDiff_strict_ok {r other : RangeSet}
    (hgood : ¬∃ x ∈ other.elems, r.elems.contains x = false) :
    r.difference_update other true =
      .ok ⟨r.elems.filter (fun x => !other.elems.contains x),
           r.padding, r.autostep⟩ := by
  unfold RangeSet.difference_update
  cases hf : other.elems.find? (fun x => !r.elems.contains x) with
  | none => rfl
  | some i =>
    have h1 := List.find?_some hf
    have h2 := List.mem_of_find?_eq_some hf
    exact absurd ⟨i, h2, by simpa using h1⟩ hgood

theorem mem_nodeItems_some {b : NodeSetBase} {p : String} {ers : RangeSet}
    {i : Nat} (he : (p, some ers) ∈ b.patterns) (hi : i ∈ ers.elems) :
    (p, some i) ∈ b.nodeItems := by
  unfold NodeSetBase.nodeItems
  rw [List.mem_flatten]
  refine ⟨ers.elems.map (fun j => (p, some j)), ?_, ?_⟩
  · rw [List.mem_map]
    exact ⟨(p, some ers), he, rfl⟩
  · rw [List.mem_map]
    exact ⟨i, hi, rfl⟩

theorem mem_nodeItems_none {b : NodeSetBase} {p : String}
    (he : (p, none) ∈ b.patterns) : (p, none) ∈ b.nodeItems := by
  unfold NodeSetBase.nodeItems
  rw [List.mem_flatten]
  refine ⟨[(p, none)], ?_, by simp⟩
  rw [List.mem_map]
  exact ⟨(p, none), he, rfl⟩

theorem nodeItems_cases {b : NodeSetBase} {x : String × Option Nat}
    (hx : x ∈ b.nodeItems) :
    (∃ p ers i, x = (p, some i) ∧ (p, some ers) ∈ b.patterns ∧ i ∈ ers.elems) ∨
    (∃ p, x = (p, none) ∧ (p, none) ∈ b.patterns) := by
  unfold NodeSetBase.nodeItems at hx
  rw [List.mem_flatten] at hx
  obtain ⟨l, hl, hxl⟩ := hx
  rw [List.mem_map] at hl
  obtain ⟨e, he, hel⟩ := hl
  obtain ⟨p, v⟩ := e
  cases v with
  | some ers =>
    subst hel
    rw [List.mem_map] at hxl
    obtain ⟨i, hi, hix⟩ := hxl
    exact Or.inl ⟨p, ers, i, hix.symm, he, hi⟩
  | none =>
    subst hel
    simp only [List.mem_singleton] at hxl
    exact Or.inr ⟨p, hxl, he⟩

end StrictnessLemmas

section StrictnessMain

theorem diffStep_numbered {ns : NodeSetBase} {purge : List String} {p : String}
    {ers rs : RangeSet} {strict : Bool}
    (hlks : lookupPat ns.patterns p = some (some rs)) (hrst : rs.truthy = true) :
    NodeSetBase.diffStep strict ns purge p (some ers) =
      Except.bind (rs.difference_update ers strict)
        (fun rs' => .ok (⟨setPat ns.patterns p (some rs')⟩,
          if rs'.size = 0 then purge ++ [p] else purge)) := by
  unfold NodeSetBase.diffStep
  rw [hlks]
  simp [hrst]
  rfl

theorem diffStep_absent {ns : NodeSetBase} {purge : List String} {p : String}
    {ev : Option RangeSet} {strict : Bool} (h : lookupPat ns.patterns p = none) :
    NodeSetBase.diffStep strict ns purge p ev =
      (if strict then .error (.keyError p) else .ok (ns, purge)) := by
  unfold NodeSetBase.diffStep
  rw [h]
  unfold NodeSetBase.diffStep.diffElse
  simp [memKey, h]

theorem diffStep_unnumbered {ns : NodeSetBase} {purge : List String}
    {p : String} {ev : Option RangeSet} {strict : Bool}
    (h : lookupPat ns.patterns p = some none) :
    NodeSetBase.diffStep strict ns purge p ev = .ok (ns, purge ++ [p]) := by
  unfold NodeSetBase.diffStep
  rw [h]
  unfold NodeSetBase.diffStep.diffElse
  simp [memKey, h]

theorem diffGo_strict_iff {a : NodeSetBase}
    (hane : a.noEmpty = true) (hasl : a.slotOk = true) :
    ∀ (l : List (String × Option RangeSet)) (ns : NodeSetBase)
      (purge : List String),
      (∀ e ∈ l, lookupPat ns.patterns e.1 = lookupPat a.patterns e.1) →
      NodeSetBase.keysNodup l = true →
      (∀ e ∈ l, entryWF e) →
      ((∃ er, NodeSetBase.diffGo true (ns, purge) l = .error (.keyError er)) ↔
        ∃ e ∈ l, badEntry a e) := by
  intro l
  induction l with
  | nil =>
    intro ns purge _ _ _
    constructor
    · rintro ⟨er, her⟩
      exact absurd her (by simp [NodeSetBase.diffGo])
    · rintro ⟨e, he, _⟩
      simp at he
  | cons e t ih =>
    intro ns purge hagree hnd hwfl
    obtain ⟨p, ev⟩ := e
    have hb : NodeSetBase.diffGo true (ns, purge) ((p, ev) :: t) =
        Except.bind (NodeSetBase.diffStep true ns purge p ev)
          (fun st2 => NodeSetBase.diffGo true st2 t) := rfl
    have hlk : lookupPat ns.patterns p = lookupPat a.patterns p :=
      hagree (p, ev) (by simp)
    have hwfe : entryWF (p, ev) := hwfl (p, ev) (by simp)
    have hnd' : NodeSetBase.keysNodup t = true ∧ memKey t p = false := by
      simp only [NodeSetBase.keysNodup, Bool.and_eq_true, Bool.not_eq_true'] at hnd
      exact ⟨hnd.2, hnd.1⟩
    have htne : ∀ f ∈ t, f.1 ≠ p := memKey_false_ne hnd'.2
    have hwft : ∀ f ∈ t, entryWF f :=
      fun f hf => hwfl f (List.mem_cons_of_mem _ hf)
    cases ev with
    | some ers =>
      have hwfe' : ers.truthy = true ∧ hasSlot p = true := hwfe
      cases hla : lookupPat a.patterns p with
      | none =>
        have hstep : NodeSetBase.diffStep true ns purge p (some ers) =
            .error (.keyError p) := by
          rw [diffStep_absent (hlk.trans hla)]
          rfl
        refine iff_of_true ⟨p, ?_⟩ ⟨(p, some ers), by simp, by simp [badEntry, hla]⟩
        rw [hb, hstep]
        rfl
      | some v =>
        cases v with
        | none =>
          have := (slotOk_mem hasl (lookup_mem hla)).2 rfl
          rw [hwfe'.2] at this
          cases this
        | some rs =>
          have hrst : rs.truthy = true := noEmpty_mem hane (lookup_mem hla)
          have hlks : lookupPat ns.patterns p = some (some rs) := hlk.trans hla
          by_cases hbad : ∃ x ∈ ers.elems, rs.elems.contains x = false
          · obtain ⟨er₀, her₀⟩ := @rsDiff_strict_error rs ers hbad
            have hstep : NodeSetBase.diffStep true ns purge p (some ers) =
                .error (.keyError er₀) := by
              rw [diffStep_numbered hlks hrst, her₀]
              rfl
            refine iff_of_true ⟨er₀, ?_⟩
              ⟨(p, some ers), by simp, by simpa [badEntry, hla] using hbad⟩
            rw [hb, hstep]
            rfl
          · obtain ⟨rs', hok⟩ : ∃ rs', rs.difference_update ers true = .ok rs' :=
              ⟨_, @rsDiff_strict_ok rs ers hbad⟩
            have hstep : NodeSetBase.diffStep true ns purge p (some ers) =
                .ok (⟨setPat ns.patterns p (some rs')⟩,
                  if rs'.size = 0 then purge ++ [p] else purge) := by
              rw [diffStep_numbered hlks hrst, hok]
              rfl
            rw [hb, hstep]
            have hagret : ∀ f ∈ t,
                lookupPat (setPat ns.patterns p (some rs')) f.1 =
                lookupPat a.patterns f.1 := by
              intro f hf
              rw [lookupPat_setPat_ne _ _ _ _ (fun hpf => htne f hf hpf.symm)]
              exact hagree f (List.mem_cons_of_mem _ hf)
            have hiff := ih ⟨setPat ns.patterns p (some rs')⟩
              (if rs'.size = 0 then purge ++ [p] else purge) hagret hnd'.1 hwft
            constructor
            · intro hl
              obtain ⟨f, hf, hbadf⟩ := hiff.mp hl
              exact ⟨f, List.mem_cons_of_mem _ hf, hbadf⟩
            · rintro ⟨f, hf, hbadf⟩
              rcases List.mem_cons.mp hf with hf' | hf'
              · rw [hf'] at hbadf
                have : badEntry a (p, some ers) := hbadf
                rw [show badEntry a (p, some ers) =
                    (match lookupPat a.patterns p with
                     | some (some rs) => ∃ x ∈ ers.elems, rs.elems.contains x = false
                     | some none => False
                     | none => True) from rfl, hla] at this
                exact absurd this hbad
              · exact hiff.mpr ⟨f, hf', hbadf⟩
    | none =>
      have hwfe' : hasSlot p = false := hwfe
      cases hla : lookupPat a.patterns p with
      | none =>
        have hstep : NodeSetBase.diffStep true ns purge p none =
            .error (.keyError p) := by
          rw [diffStep_absent (hlk.trans hla)]
          rfl
        refine iff_of_true ⟨p, ?_⟩ ⟨(p, none), by simp, by simp [badEntry, hla]⟩
        rw [hb, hstep]
        rfl
      | some v =>
        cases v with
        | some rs =>
          have := (slotOk_mem hasl (lookup_mem hla)).1 rs rfl
          rw [hwfe'] at this
          cases this
        | none =>
          have hstep : NodeSetBase.diffStep true ns purge p none =
              .ok (ns, purge ++ [p]) := diffStep_unnumbered (hlk.trans hla)
          rw [hb, hstep]
          have hiff := ih ns (purge ++ [p])
            (fun f hf => hagree f (List.mem_cons_of_mem _ hf)) hnd'.1 hwft
          constructor
          · intro hl
            obtain ⟨f, hf, hbadf⟩ := hiff.mp hl
            exact ⟨f, List.mem_cons_of_mem _ hf, hbadf⟩
          · rintro ⟨f, hf, hbadf⟩
            rcases List.mem_cons.mp hf with hf' | hf'
            · rw [hf'] at hbadf
              have : lookupPat a.patterns p = none := hbadf
              rw [hla] at this
              cases this
            · exact hiff.mpr ⟨f, hf', hbadf⟩

end StrictnessMain

section StrictnessFinal

theorem bad_iff_nodeItems {a b : NodeSetBase} (hasl : a.slotOk = true)
    (hwb : b.wf = true) :
    (∃ e ∈ b.patterns, badEntry a e) ↔
      ∃ x ∈ b.nodeItems, a.memberNode x = false := by
  constructor
  · rintro ⟨⟨p, ev⟩, he, hbad⟩
    cases ev with
    | some ers =>
      have hwfe : ers.truthy = true ∧ hasSlot p = true := wf_entry hwb _ he
      simp only [badEntry] at hbad
      cases hla : lookupPat a.patterns p with
      | none =>
        obtain ⟨i, hi⟩ : ∃ i, i ∈ ers.elems := by
          cases hel : ers.elems with
          | nil =>
            have := hwfe.1
            rw [RangeSet.truthy, hel] at this
            simp at this
          | cons x t' => exact ⟨x, by simp [hel]⟩
        refine ⟨(p, some i), mem_nodeItems_some he hi, ?_⟩
        simp [NodeSetBase.memberNode, hla]
      | some v =>
        cases v with
        | none =>
          rw [hla] at hbad
          exact hbad.elim
        | some rs =>
          rw [hla] at hbad
          obtain ⟨i, hi, hc⟩ := hbad
          refine ⟨(p, some i), mem_nodeItems_some he hi, ?_⟩
          have hni : i ∉ rs.elems := by simpa using hc
          simp [NodeSetBase.memberNode, hla, hni]
    | none =>
      have hbad' : lookupPat a.patterns p = none := hbad
      refine ⟨(p, none), mem_nodeItems_none he, ?_⟩
      simp [NodeSetBase.memberNode, hbad']
  · rintro ⟨x, hx, hmem⟩
    rcases nodeItems_cases hx with ⟨p, ers, i, hxe, he, hi⟩ | ⟨p, hxe, he⟩
    · subst hxe
      refine ⟨(p, some ers), he, ?_⟩
      cases hla : lookupPat a.patterns p with
      | none => simp [badEntry, hla]
      | some v =>
        cases v with
        | some rs =>
          simp only [NodeSetBase.memberNode, hla] at hmem
          simp only [badEntry, hla]
          exact ⟨i, hi, hmem⟩
        | none =>
          have h1 : hasSlot p = true := (wf_entry hwb _ he).2
          have h2 : hasSlot p = false := (slotOk_mem hasl (lookup_mem hla)).2 rfl
          rw [h1] at h2
          cases h2
    · subst hxe
      refine ⟨(p, none), he, ?_⟩
      cases hla : lookupPat a.patterns p with
      | none => exact hla
      | some v =>
        cases v with
        | none => simp [NodeSetBase.memberNode, hla] at hmem
        | some rs =>
          have h1 : hasSlot p = false := wf_entry hwb _ he
          have h2 : hasSlot p = true := (slotOk_mem hasl (lookup_mem hla)).1 rs rfl
          rw [h1] at h2
          cases h2

theorem diffStep_false_no_keyError (ns : NodeSetBase) (purge : List String)
    (p : String) (ev : Option RangeSet) (er : String) :
    NodeSetBase.diffStep false ns purge p ev ≠ .error (.keyError er) := by
  intro h
  unfold NodeSetBase.diffStep at h
  split at h
  case h_1 rs heq =>
    split at h
    case isTrue ht =>
      cases ev with
      | some ers =>
        have hd : rs.difference_update ers false =
            .ok ⟨rs.elems.filter (fun x => !ers.elems.contains x),
              rs.padding, rs.autostep⟩ := rfl
        simp only at h
        rw [hd] at h
        exact Except.noConfusion h
      | none => simp at h
    case isFalse ht =>
      unfold NodeSetBase.diffStep.diffElse at h
      split at h
      · simp at h
      · simp at h
  case h_2 heq =>
    unfold NodeSetBase.diffStep.diffElse at h
    split at h
    · simp at h
    · simp at h

theorem diffGo_false_no_keyError :
    ∀ (l : List (String × Option RangeSet)) (st : NodeSetBase × List String)
      (er : String),
      NodeSetBase.diffGo false st l ≠ .error (.keyError er) := by
  intro l
  induction l with
  | nil =>
    intro st er h
    simp [NodeSetBase.diffGo] at h
  | cons e t ih =>
    intro st er h
    obtain ⟨p, ev⟩ := e
    have hb : NodeSetBase.diffGo false st ((p, ev) :: t) =
        Except.bind (NodeSetBase.diffStep false st.1 st.2 p ev)
          (fun st2 => NodeSetBase.diffGo false st2 t) := rfl
    rw [hb] at h
    rcases exceptBind_error h with h' | ⟨s, hs, h'⟩
    · exact diffStep_false_no_keyError _ _ _ _ _ h'
    · exact ih s er h'

end StrictnessFinal

/--
C6. Non-strict `difference_update` never raises the missing-member
`KeyError`; `remove` is exactly `difference_update(strict=True)`; and for
operands satisfying the data model, the strict variant raises a
missing-member `KeyError` if and only if some node of the other set is not
a member of self (membership in the program's template-wise sense).
-/
theorem difference_strictness (a b : NodeSetBase) :
    (∀ er, a.difference_update b false ≠ .error (.keyError er)) ∧
    a.remove b = a.difference_update b true ∧
    (a.wf = true → b.wf = true →
      ((∃ er, a.difference_update b true = .error (.keyError er)) ↔
        ∃ x ∈ b.nodeItems, a.memberNode x = false)) := by
  have hbind : ∀ strict, a.difference_update b strict =
      Except.bind (NodeSetBase.diffGo strict (a, []) b.patterns)
        (fun st => .ok ⟨delPats st.1.patterns st.2⟩) := fun _ => rfl
  refine ⟨?_, rfl, ?_⟩
  · intro er h
    rw [hbind false] at h
    rcases exceptBind_error h with h' | ⟨s, hs, h'⟩
    · exact diffGo_false_no_keyError b.patterns (a, []) er h'
    · simp at h'
  · intro ha hb
    obtain ⟨hna, hnea, hsla⟩ := wf_parts ha
    obtain ⟨hnb, hneb, hslb⟩ := wf_parts hb
    have hiff := diffGo_strict_iff hnea hsla b.patterns a []
      (fun e _ => rfl) hnb (wf_entry hb)
    rw [← bad_iff_nodeItems hsla hb, ← hiff]
    constructor
    · rintro ⟨er, h⟩
      rw [hbind true] at h
      rcases exceptBind_error h with h' | ⟨s, hs, h'⟩
      · exact ⟨er, h'⟩
      · simp at h'
    · rintro ⟨er, h⟩
      refine ⟨er, ?_⟩
      rw [hbind true, h]
      rfl

/-- Witness for C6 at `foo[1-5]` and `bar[1-2],solo`. -/
theorem difference_strictness_witness :
    (∀ er, fooOneToFive.difference_update mixedExample false ≠
      .error (.keyError er)) ∧
    fooOneToFive.remove mixedExample =
      fooOneToFive.difference_update mixedExample true ∧
    ((∃ er, fooOneToFive.difference_update mixedExample true =
        .error (.keyError er)) ↔
      ∃ x ∈ mixedExample.nodeItems, fooOneToFive.memberNode x = false) :=
  ⟨(difference_strictness fooOneToFive mixedExample).1,
   (difference_strictness fooOneToFive mixedExample).2.1,
   (difference_strictness fooOneToFive mixedExample).2.2 (by decide) (by decide)⟩

/-! ### Heap model for object identity

The frame/aliasing claim is about Python object identity: which `RangeSet`
objects a result shares with its operands. Values cannot express identity,
so the operations are repeated here over an explicit store: a `Heap` holds
the `RangeSet` objects, a pattern maps to an object id (an index) or to
`None`, `copy()` allocates, and in-place RangeSet mutation writes through
the id. The control flow mirrors the same source lines as the value model
above.
-/

/-- The store of live `RangeSet` objects; an id is an index, allocation
appends. -/
structure Heap where
  rss : List RangeSet
deriving Repr, DecidableEq

namespace Heap

/-- Number of allocated objects. -/
def size (h : Heap) : Nat := h.rss.length

/-- Dereference an id (out-of-range ids never occur for valid states). -/
def get (h : Heap) (i : Nat) : RangeSet := h.rss.getD i ⟨[], 0, none⟩

/-- Allocate a fresh object, returning the new heap and the fresh id. -/
def alloc (h : Heap) (r : RangeSet) : Heap × Nat :=
  (⟨h.rss ++ [r]⟩, h.rss.length)

/-- In-place mutation of the object behind an id. -/
def set (h : Heap) (i : Nat) (r : RangeSet) : Heap := ⟨h.rss.set i r⟩

end Heap

/-- A `NodeSetBase` in the heap model: templates map to an object id or
`None`. -/
structure HNodeSet where
  patterns : List (String × Option Nat)
deriving Repr, DecidableEq

/-- `_patterns.get(pat)` in the heap model. -/
def hLookup : List (String × Option Nat) → String → Option (Option Nat)
  | [], _ => none
  | (q, v) :: t, p => if q = p then some v else hLookup t p

/-- Dict assignment in the heap model. -/
def hSetPat : List (String × Option Nat) → String → Option Nat →
    List (String × Option Nat)
  | [], p, v => [(p, v)]
  | (q, w) :: t, p, v => if q = p then (p, v) :: t else (q, w) :: hSetPat t p v

/-- Truthiness of a fetched dict value in the heap model. -/
def hTruthy (h : Heap) : Option Nat → Bool
  | some i => (h.get i).truthy
  | none => false

/-- `copy()` (source lines 179-195): each stored RangeSet is copied —
allocated fresh — into the new set's dict. -/
def hCopyGo (h : Heap) : List (String × Option Nat) →
    Heap × List (String × Option Nat)
  | [] => (h, [])
  | (p, some i) :: t =>
    let a := h.alloc (h.get i)
    let r := hCopyGo a.1 t
    (r.1, (p, some a.2) :: r.2)
  | (p, none) :: t =>
    let r := hCopyGo h t
    (r.1, (p, none) :: r.2)

/-- The `elif rangeset: ... else: ...` tail of `_add` in the heap model:
a stored rangeset is stored by copy (fresh allocation). -/
def hAddElse (h : Heap) (ns : List (String × Option Nat)) (p : String)
    (v : Option Nat) : Heap × List (String × Option Nat) :=
  match v with
  | some j =>
    if (h.get j).truthy then
      let a := h.alloc (h.get j)
      (a.1, hSetPat ns p (some a.2))
    else (h, hSetPat ns p none)
  | none => (h, hSetPat ns p none)

/-- `_add` in the heap model: merging into an existing entry mutates the
entry's own object in place (`pat_e.update(rangeset)`). -/
def h_add (h : Heap) (ns : List (String × Option Nat)) (p : String)
    (v : Option Nat) : Except PyErr (Heap × List (String × Option Nat)) :=
  match hLookup ns p with
  | some (some i) =>
    if (h.get i).truthy then
      match v with
      | some j => .ok (h.set i ((h.get i).update (h.get j)), ns)
      | none => .error .assertionError
    else .ok (hAddElse h ns p v)
  | _ => .ok (hAddElse h ns p v)

/-- The `update` loop in the heap model. -/
def hUpdateGo (h : Heap) (ns : List (String × Option Nat)) :
    List (String × Option Nat) →
    Except PyErr (Heap × List (String × Option Nat))
  | [] => .ok (h, ns)
  | (p, v) :: t => do
    let st ← h_add h ns p v
    hUpdateGo st.1 st.2 t

/-- `union` = `copy()` then `update` (source lines 405-411). -/
def hUnion (h : Heap) (a b : HNodeSet) :
    Except PyErr (Heap × List (String × Option Nat)) :=
  let c := hCopyGo h a.patterns
  hUpdateGo c.1 c.2 b.patterns

/-- The (duplicated, here deduplicated — see C8) unnumbered branch of the
`intersection_update` loop in the heap model. -/
def hInterElse (h : Heap) (selfNs tmp : List (String × Option Nat))
    (p : String) (iv : Option Nat) :
    Except PyErr (Heap × List (String × Option Nat)) :=
  if !hTruthy h iv && (hLookup selfNs p).isSome then h_add h tmp p none
  else .ok (h, tmp)

/-- One `intersection_update` iteration in the heap model:
`rs = rangeset.copy()` allocates, `rs.intersection_update(...)` mutates the
fresh object, and `tmp._add(pat, rs)` copies again. -/
def hInterStep (h : Heap) (selfNs tmp : List (String × Option Nat))
    (p : String) (iv : Option Nat) :
    Except PyErr (Heap × List (String × Option Nat)) :=
  match hLookup selfNs p with
  | some (some i) =>
    if (h.get i).truthy then
      match iv with
      | some j =>
        let a := h.alloc (h.get i)
        let h2 := a.1.set a.2 ((a.1.get a.2).intersection_update (a.1.get j))
        if 0 < (h2.get a.2).size then h_add h2 tmp p (some a.2)
        else .ok (h2, tmp)
      | none =>
        .error (.typeError "intersection_update argument is not a RangeSet")
    else hInterElse h selfNs tmp p iv
  | _ => hInterElse h selfNs tmp p iv

/-- The `intersection_update` loop in the heap model. -/
def hInterGo (h : Heap) (selfNs tmp : List (String × Option Nat)) :
    List (String × Option Nat) →
    Except PyErr (Heap × List (String × Option Nat))
  | [] => .ok (h, tmp)
  | (p, iv) :: t => do
    let st ← hInterStep h selfNs tmp p iv
    hInterGo st.1 selfNs st.2 t

/-- `intersection` = `copy()` then `intersection_update` (the copied
patterns are discarded and replaced by `tmp`, but the copies are made —
exactly as in the source). -/
def hIntersection (h : Heap) (a b : HNodeSet) :
    Except PyErr (Heap × List (String × Option Nat)) :=
  let c := hCopyGo h a.patterns
  hInterGo c.1 c.2 [] b.patterns

/-- One `difference_update` iteration in the heap model: the member
removal mutates self's own object in place. -/
def hDiffStep (strict : Bool) (h : Heap) (ns : List (String × Option Nat))
    (purge : List String) (p : String) (ev : Option Nat) :
    Except PyErr (Heap × List (String × Option Nat) × List String) :=
  match hLookup ns p with
  | some (some i) =>
    if (h.get i).truthy then
      match ev with
      | some j => do
        let rs' ← (h.get i).difference_update (h.get j) strict
        .ok (h.set i rs', ns,
          if rs'.size = 0 then purge ++ [p] else purge)
      | none =>
        .error (.typeError "difference_update argument is not a RangeSet")
    else
      if (hLookup ns p).isSome then .ok (h, ns, purge ++ [p])
      else if strict then .error (.keyError p) else .ok (h, ns, purge)
  | _ =>
    if (hLookup ns p).isSome then .ok (h, ns, purge ++ [p])
    else if strict then .error (.keyError p) else .ok (h, ns, purge)

/-- The `difference_update` loop in the heap model. -/
def hDiffGo (strict : Bool) (h : Heap) (ns : List (String × Option Nat))
    (purge : List String) :
    List (String × Option Nat) →
    Except PyErr (Heap × List (String × Option Nat) × List String)
  | [] => .ok (h, ns, purge)
  | (p, ev) :: t => do
    let st ← hDiffStep strict h ns purge p ev
    hDiffGo strict st.1 st.2.1 st.2.2 t

/-- Purge of the collected keys (heap untouched). -/
def hDelPats (ns : List (String × Option Nat)) (purge : List String) :
    List (String × Option Nat) :=
  ns.filter (fun e => !purge.contains e.1)

/-- `difference` = `copy()` then non-strict `difference_update`
(source lines 524-531, 542-571). -/
def hDifference (h : Heap) (a b : HNodeSet) :
    Except PyErr (Heap × List (String × Option Nat)) :=
  match hDiffGo false (hCopyGo h a.patterns).1 (hCopyGo h a.patterns).2 []
      b.patterns with
  | .error e => .error e
  | .ok st => .ok (st.1, hDelPats st.2.1 st.2.2)

/-- First `symmetric_difference_update` loop in the heap model: XOR
mutates self's own objects in place. -/
def hSdPhase1 (h : Heap) (other : HNodeSet) :
    List (String × Option Nat) →
    Except PyErr (Heap × List (String × Option Nat) × List String)
  | [] => .ok (h, [], [])
  | (p, v) :: t =>
    match hLookup other.patterns p with
    | some (some j) =>
      if (h.get j).truthy then
        match v with
        | some i => do
          let st ← hSdPhase1 h other t
          .ok (st.1.set i
            ((st.1.get i).symmetric_difference_update (st.1.get j)),
            (p, some i) :: st.2.1, st.2.2)
        | none =>
          .error (.attributeError "symmetric_difference_update on None")
      else do
        let st ← hSdPhase1 h other t
        .ok (st.1, (p, v) :: st.2.1, p :: st.2.2)
    | some none => do
      let st ← hSdPhase1 h other t
      .ok (st.1, (p, v) :: st.2.1, p :: st.2.2)
    | none => do
      let st ← hSdPhase1 h other t
      .ok (st.1, (p, v) :: st.2.1, st.2.2)

/-- Second loop: adopt absent patterns via `_add` (which copies). -/
def hSdPhase2 (h : Heap) (ns : List (String × Option Nat)) :
    List (String × Option Nat) →
    Except PyErr (Heap × List (String × Option Nat))
  | [] => .ok (h, ns)
  | (p, bv) :: t =>
    if (hLookup ns p).isNone then
      match h_add h ns p bv with
      | .error e => .error e
      | .ok st => hSdPhase2 st.1 st.2 t
    else hSdPhase2 h ns t

/-- Third loop: keys mapping to a present-but-empty object. -/
def hSdPurge (h : Heap) (ns : List (String × Option Nat)) : List String :=
  (ns.filter (fun e => match e.2 with
    | some i => (h.get i).elems.isEmpty
    | none => false)).map (fun e => e.1)

/-- `symmetric_difference` = `copy()` then in-place update
(source lines 589-639). -/
def hSymmetricDifference (h : Heap) (a b : HNodeSet) :
    Except PyErr (Heap × List (String × Option Nat)) :=
  match hSdPhase1 (hCopyGo h a.patterns).1 b (hCopyGo h a.patterns).2 with
  | .error e => .error e
  | .ok st =>
    match hSdPhase2 st.1 st.2.1 b.patterns with
    | .error e => .error e
    | .ok st2 =>
      .ok (st2.1, hDelPats st2.2 (st.2.2 ++ hSdPurge st2.1 st2.2))

section HeapLemmas

/-- The object ids a pattern list refers to. -/
def IdOf (ns : List (String × Option Nat)) (i : Nat) : Prop :=
  ∃ p, (p, some i) ∈ ns

/-- Every referenced id is live. -/
def ValidIds (h : Heap) (ns : List (String × Option Nat)) : Prop :=
  ∀ i, IdOf ns i → i < h.size

/-- `h` extends `h₀`: it is at least as large and agrees on every object
of `h₀`. -/
def HeapExt (h₀ h : Heap) : Prop :=
  h₀.size ≤ h.size ∧ ∀ i, i < h₀.size → h.get i = h₀.get i

/-- Every id of `ns` lies in `[lo, hi)` — i.e. was freshly allocated. -/
def FreshIds (ns : List (String × Option Nat)) (lo hi : Nat) : Prop :=
  ∀ i, IdOf ns i → lo ≤ i ∧ i < hi

theorem HeapExt.refl (h : Heap) : HeapExt h h := ⟨le_refl _, fun _ _ => rfl⟩

theorem HeapExt.trans {h₀ h₁ h₂ : Heap} (a : HeapExt h₀ h₁) (b : HeapExt h₁ h₂) :
    HeapExt h₀ h₂ :=
  ⟨le_trans a.1 b.1, fun i hi => (b.2 i (lt_of_lt_of_le hi a.1)).trans (a.2 i hi)⟩

theorem alloc_size (h : Heap) (r : RangeSet) :
    (h.alloc r).1.size = h.size + 1 := by
  simp [Heap.alloc, Heap.size]

theorem alloc_id (h : Heap) (r : RangeSet) : (h.alloc r).2 = h.size := rfl

theorem alloc_get_lt {h : Heap} {i : Nat} (hi : i < h.size) (r : RangeSet) :
    (h.alloc r).1.get i = h.get i := by
  simp only [Heap.alloc, Heap.get]
  rw [List.getD_append _ _ _ _ hi]

theorem HeapExt_alloc (h : Heap) (r : RangeSet) : HeapExt h (h.alloc r).1 :=
  ⟨by rw [alloc_size]; omega, fun i hi => alloc_get_lt hi r⟩

theorem set_size (h : Heap) (i : Nat) (r : RangeSet) :
    (h.set i r).size = h.size := by
  simp [Heap.set, Heap.size]

theorem set_get_ne {h : Heap} {i j : Nat} (hne : j ≠ i) (r : RangeSet) :
    (h.set i r).get j = h.get j := by
  simp [Heap.set, Heap.get, List.getD, List.getElem?_set_ne (Ne.symm hne)]

theorem HeapExt_set {h₀ h : Heap} (hext : HeapExt h₀ h) {i : Nat}
    (hge : h₀.size ≤ i) (r : RangeSet) : HeapExt h₀ (h.set i r) := by
  refine ⟨by rw [set_size]; exact hext.1, fun j hj => ?_⟩
  rw [set_get_ne (by omega) r]
  exact hext.2 j hj

theorem mem_hSetPat {ns : List (String × Option Nat)} {p : String}
    {v : Option Nat} {e : String × Option Nat} (h : e ∈ hSetPat ns p v) :
    e = (p, v) ∨ e ∈ ns := by
  induction ns with
  | nil => simpa [hSetPat] using h
  | cons f t ih =>
    obtain ⟨q, w⟩ := f
    by_cases hq : q = p
    · simp [hSetPat, hq] at h
      rcases h with h | h
      · exact Or.inl h
      · exact Or.inr (List.mem_cons_of_mem _ h)
    · simp [hSetPat, hq] at h
      rcases h with h | h
      · exact Or.inr (by simp [h])
      · rcases ih h with h' | h'
        · exact Or.inl h'
        · exact Or.inr (List.mem_cons_of_mem _ h')

theorem FreshIds_mono {ns : List (String × Option Nat)} {lo hi hi' : Nat}
    (hle : hi ≤ hi') (h : FreshIds ns lo hi) : FreshIds ns lo hi' :=
  fun i hid => ⟨(h i hid).1, lt_of_lt_of_le (h i hid).2 hle⟩

theorem FreshIds_hSetPat {ns : List (String × Option Nat)} {lo hi : Nat}
    (h : FreshIds ns lo hi) {p : String} {v : Option Nat}
    (hv : ∀ k, v = some k → lo ≤ k ∧ k < hi) :
    FreshIds (hSetPat ns p v) lo hi := by
  intro i hid
  obtain ⟨q, hq⟩ := hid
  rcases mem_hSetPat hq with h' | h'
  · have hv2 : v = some i := by simpa using (congrArg Prod.snd h').symm
    exact hv i hv2
  · exact h i ⟨q, h'⟩

theorem hCopyGo_spec (h : Heap) :
    ∀ l : List (String × Option Nat),
      HeapExt h (hCopyGo h l).1 ∧
      FreshIds (hCopyGo h l).2 h.size (hCopyGo h l).1.size := by
  intro l
  induction l generalizing h with
  | nil =>
    refine ⟨HeapExt.refl h, ?_⟩
    rintro i ⟨p, hp⟩
    simp [hCopyGo] at hp
  | cons e t ih =>
    obtain ⟨p, v⟩ := e
    cases v with
    | some i =>
      obtain ⟨hext, hfr⟩ := ih (h.alloc (h.get i)).1
      refine ⟨(HeapExt_alloc h _).trans hext, ?_⟩
      rintro j ⟨q, hq⟩
      simp only [hCopyGo] at hq
      rcases List.mem_cons.mp hq with h' | h'
      · have hj : j = (h.alloc (h.get i)).2 := by
          have h2 := congrArg Prod.snd h'
          simpa using h2
      -- fresh id: equals h.size, below the final size
        rw [hj, alloc_id]
        constructor
        · exact le_refl _
        · calc h.size < (h.alloc (h.get i)).1.size := by rw [alloc_size]; omega
            _ ≤ (hCopyGo (h.alloc (h.get i)).1 t).1.size := hext.1
      · have := hfr j ⟨q, h'⟩
        constructor
        · calc h.size ≤ (h.alloc (h.get i)).1.size := by rw [alloc_size]; omega
            _ ≤ j := this.1
        · exact this.2
    | none =>
      obtain ⟨hext, hfr⟩ := ih h
      refine ⟨hext, ?_⟩
      rintro j ⟨q, hq⟩
      simp only [hCopyGo] at hq
      rcases List.mem_cons.mp hq with h' | h'
      · exact absurd (congrArg Prod.snd h') (by simp)
      · exact hfr j ⟨q, h'⟩

end HeapLemmas

section HeapAddLemmas

theorem hLookup_mem {ns : List (String × Option Nat)} {p : String}
    {v : Option Nat} (h : hLookup ns p = some v) : (p, v) ∈ ns := by
  induction ns with
  | nil => simp [hLookup] at h
  | cons e t ih =>
    obtain ⟨q, w⟩ := e
    by_cases hq : q = p
    · subst hq
      have hw : w = v := by simpa [hLookup] using h
      subst hw
      simp
    · simp only [hLookup, if_neg hq] at h
      exact List.mem_cons_of_mem _ (ih h)

theorem hAddElse_spec {h₀ h : Heap} {ns : List (String × Option Nat)}
    (hext : HeapExt h₀ h) (hfr : FreshIds ns h₀.size h.size) (p : String)
    (v : Option Nat) :
    HeapExt h₀ (hAddElse h ns p v).1 ∧
    FreshIds (hAddElse h ns p v).2 h₀.size (hAddElse h ns p v).1.size ∧
    h.size ≤ (hAddElse h ns p v).1.size := by
  unfold hAddElse
  cases v with
  | some j =>
    by_cases ht : (h.get j).truthy
    · simp only [ht, if_true]
      refine ⟨hext.trans (HeapExt_alloc h _), ?_, by rw [alloc_size]; omega⟩
      apply FreshIds_hSetPat (FreshIds_mono (by rw [alloc_size]; omega) hfr)
      intro k hk
      have hk2 : k = (h.alloc (h.get j)).2 := by simpa using hk.symm
      rw [hk2, alloc_id, alloc_size]
      exact ⟨hext.1, by omega⟩
    · simp only [ht, Bool.false_eq_true, if_false]
      exact ⟨hext, FreshIds_hSetPat hfr (fun k hk => by cases hk), le_refl _⟩
  | none =>
    exact ⟨hext, FreshIds_hSetPat hfr (fun k hk => by cases hk), le_refl _⟩

theorem h_add_spec {h₀ h : Heap} {ns : List (String × Option Nat)}
    (hext : HeapExt h₀ h) (hfr : FreshIds ns h₀.size h.size) (p : String)
    (v : Option Nat) :
    ∀ h' ns', h_add h ns p v = .ok (h', ns') →
      HeapExt h₀ h' ∧ FreshIds ns' h₀.size h'.size ∧ h.size ≤ h'.size := by
  intro h' ns' hr
  unfold h_add at hr
  split at hr
  case h_1 i heq =>
    split at hr
    case isTrue ht =>
      cases v with
      | some j =>
        simp only [Except.ok.injEq, Prod.mk.injEq] at hr
        obtain ⟨hr1, hr2⟩ := hr
        subst hr1
        subst hr2
        have hi : h₀.size ≤ i ∧ i < h.size := hfr i ⟨p, hLookup_mem heq⟩
        refine ⟨HeapExt_set hext hi.1 _, ?_, by rw [set_size]⟩
        rw [set_size]
        exact hfr
      | none => simp at hr
    case isFalse ht =>
      simp only [Except.ok.injEq] at hr
      have e1 : (hAddElse h ns p v).1 = h' := congrArg Prod.fst hr
      have e2 : (hAddElse h ns p v).2 = ns' := congrArg Prod.snd hr
      subst e1
      subst e2
      exact hAddElse_spec hext hfr p v
  case h_2 heq =>
    simp only [Except.ok.injEq] at hr
    have e1 : (hAddElse h ns p v).1 = h' := congrArg Prod.fst hr
    have e2 : (hAddElse h ns p v).2 = ns' := congrArg Prod.snd hr
    subst e1
    subst e2
    exact hAddElse_spec hext hfr p v

theorem hUpdateGo_spec {h₀ : Heap} :
    ∀ (l : List (String × Option Nat)) (h : Heap)
      (ns : List (String × Option Nat)),
      HeapExt h₀ h → FreshIds ns h₀.size h.size →
      ∀ h' ns', hUpdateGo h ns l = .ok (h', ns') →
        HeapExt h₀ h' ∧ FreshIds ns' h₀.size h'.size ∧ h.size ≤ h'.size := by
  intro l
  induction l with
  | nil =>
    intro h ns hext hfr h' ns' hr
    cases hr
    exact ⟨hext, hfr, le_refl _⟩
  | cons e t ih =>
    intro h ns hext hfr h' ns' hr
    obtain ⟨p, v⟩ := e
    have hb : hUpdateGo h ns ((p, v) :: t) =
        Except.bind (h_add h ns p v) (fun st => hUpdateGo st.1 st.2 t) := rfl
    rw [hb] at hr
    obtain ⟨st, hst, hrest⟩ := exceptBind_ok hr
    obtain ⟨hext1, hfr1, hsz1⟩ := h_add_spec hext hfr p v st.1 st.2 (by
      rw [← hst])
    obtain ⟨hext2, hfr2, hsz2⟩ := ih st.1 st.2 hext1 hfr1 h' ns' hrest
    exact ⟨hext2, hfr2, le_trans hsz1 hsz2⟩

end HeapAddLemmas

section HeapInterDiffLemmas

theorem hInterElse_spec {h₀ h : Heap} {selfNs tmp : List (String × Option Nat)}
    (hext : HeapExt h₀ h) (hfr : FreshIds tmp h₀.size h.size) (p : String)
    (iv : Option Nat) :
    ∀ h' tmp', hInterElse h selfNs tmp p iv = .ok (h', tmp') →
      HeapExt h₀ h' ∧ FreshIds tmp' h₀.size h'.size ∧ h.size ≤ h'.size := by
  intro h' tmp' hr
  unfold hInterElse at hr
  split at hr
  · exact h_add_spec hext hfr p none h' tmp' hr
  · cases hr
    exact ⟨hext, hfr, le_refl _⟩

theorem hInterStep_spec {h₀ h : Heap} {selfNs tmp : List (String × Option Nat)}
    (hext : HeapExt h₀ h) (hfr : FreshIds tmp h₀.size h.size) (p : String)
    (iv : Option Nat) :
    ∀ h' tmp', hInterStep h selfNs tmp p iv = .ok (h', tmp') →
      HeapExt h₀ h' ∧ FreshIds tmp' h₀.size h'.size ∧ h.size ≤ h'.size := by
  intro h' tmp' hr
  unfold hInterStep at hr
  split at hr
  case h_1 i heq =>
    split at hr
    case isTrue ht =>
      cases iv with
      | some j =>
        simp only at hr
        have hext2 : HeapExt h₀
            (((h.alloc (h.get i)).1).set (h.alloc (h.get i)).2
              ((((h.alloc (h.get i)).1).get (h.alloc (h.get i)).2).intersection_update
                (((h.alloc (h.get i)).1).get j))) := by
          apply HeapExt_set (hext.trans (HeapExt_alloc h _))
          rw [alloc_id]
          exact hext.1
        have hsz2 : (((h.alloc (h.get i)).1).set (h.alloc (h.get i)).2
              ((((h.alloc (h.get i)).1).get (h.alloc (h.get i)).2).intersection_update
                (((h.alloc (h.get i)).1).get j))).size = h.size + 1 := by
          rw [set_size, alloc_size]
        split at hr
        · obtain ⟨hext3, hfr3, hsz3⟩ :=
            h_add_spec hext2 (by rw [hsz2]; exact FreshIds_mono (by omega) hfr)
              p (some (h.alloc (h.get i)).2) h' tmp' hr
          rw [hsz2] at hsz3
          exact ⟨hext3, hfr3, by omega⟩
        · cases hr
          refine ⟨hext2, ?_, by rw [hsz2]; omega⟩
          rw [hsz2]
          exact FreshIds_mono (by omega) hfr
      | none => simp at hr
    case isFalse ht => exact hInterElse_spec hext hfr p iv h' tmp' hr
  case h_2 heq => exact hInterElse_spec hext hfr p iv h' tmp' hr

theorem hInterGo_spec {h₀ : Heap} {selfNs : List (String × Option Nat)} :
    ∀ (l : List (String × Option Nat)) (h : Heap)
      (tmp : List (String × Option Nat)),
      HeapExt h₀ h → FreshIds tmp h₀.size h.size →
      ∀ h' tmp', hInterGo h selfNs tmp l = .ok (h', tmp') →
        HeapExt h₀ h' ∧ FreshIds tmp' h₀.size h'.size := by
  intro l
  induction l with
  | nil =>
    intro h tmp hext hfr h' tmp' hr
    cases hr
    exact ⟨hext, hfr⟩
  | cons e t ih =>
    intro h tmp hext hfr h' tmp' hr
    obtain ⟨p, iv⟩ := e
    have hb : hInterGo h selfNs tmp ((p, iv) :: t) =
        Except.bind (hInterStep h selfNs tmp p iv)
          (fun st => hInterGo st.1 selfNs st.2 t) := rfl
    rw [hb] at hr
    obtain ⟨st, hst, hrest⟩ := exceptBind_ok hr
    obtain ⟨hext1, hfr1, _⟩ := hInterStep_spec hext hfr p iv st.1 st.2 (by
      rw [← hst])
    exact ih st.1 st.2 hext1 hfr1 h' tmp' hrest

theorem FreshIds_nil (lo hi : Nat) : FreshIds [] lo hi := by
  rintro i ⟨p, hp⟩
  simp at hp

theorem hDiffStep_spec {h₀ h : Heap} {ns : List (String × Option Nat)}
    {purge : List String} (hext : HeapExt h₀ h)
    (hfr : FreshIds ns h₀.size h.size) (strict : Bool) (p : String)
    (ev : Option Nat) :
    ∀ h' ns' purge', hDiffStep strict h ns purge p ev = .ok (h', ns', purge') →
      HeapExt h₀ h' ∧ ns' = ns ∧ h.size ≤ h'.size := by
  intro h' ns' purge' hr
  unfold hDiffStep at hr
  split at hr
  case h_1 i heq =>
    split at hr
    case isTrue ht =>
      cases ev with
      | some j =>
        simp only at hr
        obtain ⟨rs', hrs', hrest⟩ := exceptBind_ok hr
        simp only [Except.ok.injEq, Prod.mk.injEq] at hrest
        obtain ⟨hr1, hr2, _⟩ := hrest
        subst hr1
        subst hr2
        have hi : h₀.size ≤ i ∧ i < h.size := hfr i ⟨p, hLookup_mem heq⟩
        exact ⟨HeapExt_set hext hi.1 _, rfl, by rw [set_size]⟩
      | none => simp at hr
    case isFalse ht =>
      split at hr
      · simp only [Except.ok.injEq, Prod.mk.injEq] at hr
        obtain ⟨hr1, hr2, _⟩ := hr
        subst hr1
        subst hr2
        exact ⟨hext, rfl, le_refl _⟩
      · split at hr
        · cases hr
        · simp only [Except.ok.injEq, Prod.mk.injEq] at hr
          obtain ⟨hr1, hr2, _⟩ := hr
          subst hr1
          subst hr2
          exact ⟨hext, rfl, le_refl _⟩
  case h_2 heq =>
    split at hr
    · simp only [Except.ok.injEq, Prod.mk.injEq] at hr
      obtain ⟨hr1, hr2, _⟩ := hr
      subst hr1
      subst hr2
      exact ⟨hext, rfl, le_refl _⟩
    · split at hr
      · cases hr
      · simp only [Except.ok.injEq, Prod.mk.injEq] at hr
        obtain ⟨hr1, hr2, _⟩ := hr
        subst hr1
        subst hr2
        exact ⟨hext, rfl, le_refl _⟩

theorem hDiffGo_spec {h₀ : Heap} :
    ∀ (l : List (String × Option Nat)) (h : Heap)
      (ns : List (String × Option Nat)) (purge : List String),
      HeapExt h₀ h → FreshIds ns h₀.size h.size →
      ∀ h' ns' purge', hDiffGo false h ns purge l = .ok (h', ns', purge') →
        HeapExt h₀ h' ∧ FreshIds ns' h₀.size h'.size := by
  intro l
  induction l with
  | nil =>
    intro h ns purge hext hfr h' ns' purge' hr
    cases hr
    exact ⟨hext, hfr⟩
  | cons e t ih =>
    intro h ns purge hext hfr h' ns' purge' hr
    obtain ⟨p, ev⟩ := e
    have hb : hDiffGo false h ns purge ((p, ev) :: t) =
        Except.bind (hDiffStep false h ns purge p ev)
          (fun st => hDiffGo false st.1 st.2.1 st.2.2 t) := rfl
    rw [hb] at hr
    obtain ⟨st, hst, hrest⟩ := exceptBind_ok hr
    obtain ⟨hext1, hns1, hsz1⟩ := hDiffStep_spec hext hfr false p ev
      st.1 st.2.1 st.2.2 (by rw [← hst])
    have hfr1 : FreshIds st.2.1 h₀.size st.1.size := by
      rw [hns1]
      exact FreshIds_mono hsz1 hfr
    exact ih st.1 st.2.1 st.2.2 hext1 hfr1 h' ns' purge' hrest

theorem IdOf_hDelPats {ns : List (String × Option Nat)} {purge : List String}
    {i : Nat} (h : IdOf (hDelPats ns purge) i) : IdOf ns i := by
  obtain ⟨p, hp⟩ := h
  exact ⟨p, (List.mem_filter.mp hp).1⟩

end HeapInterDiffLemmas

section HeapSdLemmas

theorem FreshIds_cons {p : String} {v : Option Nat}
    {t : List (String × Option Nat)} {lo hi : Nat}
    (h : FreshIds ((p, v) :: t) lo hi) :
    FreshIds t lo hi ∧ ∀ i, v = some i → lo ≤ i ∧ i < hi :=
  ⟨fun i hid => h i (by obtain ⟨q, hq⟩ := hid; exact ⟨q, List.mem_cons_of_mem _ hq⟩),
   fun i hv => h i ⟨p, by rw [hv]; simp⟩⟩

theorem FreshIds_cons_intro {p : String} {v : Option Nat}
    {t : List (String × Option Nat)} {lo hi : Nat} (ht : FreshIds t lo hi)
    (hv : ∀ i, v = some i → lo ≤ i ∧ i < hi) :
    FreshIds ((p, v) :: t) lo hi := by
  rintro i ⟨q, hq⟩
  rcases List.mem_cons.mp hq with h' | h'
  · have hv2 : v = some i := by simpa using (congrArg Prod.snd h').symm
    exact hv i hv2
  · exact ht i ⟨q, h'⟩

theorem hSdPhase1_spec {h₀ : Heap} (other : HNodeSet) :
    ∀ (l : List (String × Option Nat)) (h : Heap),
      HeapExt h₀ h → FreshIds l h₀.size h.size →
      ∀ h' ns' purge, hSdPhase1 h other l = .ok (h', ns', purge) →
        HeapExt h₀ h' ∧ FreshIds ns' h₀.size h'.size ∧ h.size ≤ h'.size := by
  intro l
  induction l with
  | nil =>
    intro h hext _ h' ns' purge hr
    cases hr
    exact ⟨hext, FreshIds_nil _ _, le_refl _⟩
  | cons e t ih =>
    intro h hext hfr h' ns' purge hr
    obtain ⟨p, v⟩ := e
    obtain ⟨hfrt, hfrv⟩ := FreshIds_cons hfr
    unfold hSdPhase1 at hr
    split at hr
    case h_1 j heq =>
      split at hr
      case isTrue ht =>
        cases v with
        | some i =>
          simp only at hr
          obtain ⟨st, hst, hrest⟩ := exceptBind_ok hr
          simp only [Except.ok.injEq, Prod.mk.injEq] at hrest
          obtain ⟨hr1, hr2, _⟩ := hrest
          subst hr1
          subst hr2
          obtain ⟨hext1, hfr1, hsz1⟩ := ih h hext hfrt st.1 st.2.1 st.2.2 (by
            rw [← hst])
          have hib := hfrv i rfl
          refine ⟨HeapExt_set hext1 hib.1 _, ?_, ?_⟩
          · rw [set_size]
            exact FreshIds_cons_intro hfr1 (fun k hk => by
              cases hk
              exact ⟨hib.1, by omega⟩)
          · rw [set_size]
            exact hsz1
        | none => simp at hr
      case isFalse ht =>
        obtain ⟨st, hst, hrest⟩ := exceptBind_ok hr
        simp only [Except.ok.injEq, Prod.mk.injEq] at hrest
        obtain ⟨hr1, hr2, _⟩ := hrest
        subst hr1
        subst hr2
        obtain ⟨hext1, hfr1, hsz1⟩ := ih h hext hfrt st.1 st.2.1 st.2.2 (by
          rw [← hst])
        refine ⟨hext1, FreshIds_cons_intro hfr1 (fun k hk => ?_), hsz1⟩
        have := hfrv k hk
        exact ⟨this.1, by omega⟩
    case h_2 heq =>
      obtain ⟨st, hst, hrest⟩ := exceptBind_ok hr
      simp only [Except.ok.injEq, Prod.mk.injEq] at hrest
      obtain ⟨hr1, hr2, _⟩ := hrest
      subst hr1
      subst hr2
      obtain ⟨hext1, hfr1, hsz1⟩ := ih h hext hfrt st.1 st.2.1 st.2.2 (by
        rw [← hst])
      refine ⟨hext1, FreshIds_cons_intro hfr1 (fun k hk => ?_), hsz1⟩
      have := hfrv k hk
      exact ⟨this.1, by omega⟩
    case h_3 heq =>
      obtain ⟨st, hst, hrest⟩ := exceptBind_ok hr
      simp only [Except.ok.injEq, Prod.mk.injEq] at hrest
      obtain ⟨hr1, hr2, _⟩ := hrest
      subst hr1
      subst hr2
      obtain ⟨hext1, hfr1, hsz1⟩ := ih h hext hfrt st.1 st.2.1 st.2.2 (by
        rw [← hst])
      refine ⟨hext1, FreshIds_cons_intro hfr1 (fun k hk => ?_), hsz1⟩
      have := hfrv k hk
      exact ⟨this.1, by omega⟩

theorem hSdPhase2_spec {h₀ : Heap} :
    ∀ (l : List (String × Option Nat)) (h : Heap)
      (ns : List (String × Option Nat)),
      HeapExt h₀ h → FreshIds ns h₀.size h.size →
      ∀ h' ns', hSdPhase2 h ns l = .ok (h', ns') →
        HeapExt h₀ h' ∧ FreshIds ns' h₀.size h'.size := by
  intro l
  induction l with
  | nil =>
    intro h ns hext hfr h' ns' hr
    cases hr
    exact ⟨hext, hfr⟩
  | cons e t ih =>
    intro h ns hext hfr h' ns' hr
    obtain ⟨p, bv⟩ := e
    unfold hSdPhase2 at hr
    split at hr
    · split at hr
      · cases hr
      · rename_i st hst
        obtain ⟨hext1, hfr1, _⟩ := h_add_spec hext hfr p bv st.1 st.2 (by
          rw [hst])
        exact ih st.1 st.2 hext1 hfr1 h' ns' hr
    · exact ih h ns hext hfr h' ns' hr

end HeapSdLemmas

section HeapOpSpecs

theorem hUnion_spec (h : Heap) (a b : HNodeSet) :
    ∀ h' c, hUnion h a b = .ok (h', c) →
      HeapExt h h' ∧ FreshIds c h.size h'.size := by
  intro h' c hr
  unfold hUnion at hr
  obtain ⟨hext1, hfr1⟩ := hCopyGo_spec h a.patterns
  obtain ⟨hext2, hfr2, _⟩ := hUpdateGo_spec b.patterns
    (hCopyGo h a.patterns).1 (hCopyGo h a.patterns).2 hext1 hfr1 h' c hr
  exact ⟨hext2, hfr2⟩

theorem hIntersection_spec (h : Heap) (a b : HNodeSet) :
    ∀ h' c, hIntersection h a b = .ok (h', c) →
      HeapExt h h' ∧ FreshIds c h.size h'.size := by
  intro h' c hr
  unfold hIntersection at hr
  obtain ⟨hext1, _⟩ := hCopyGo_spec h a.patterns
  exact hInterGo_spec b.patterns (hCopyGo h a.patterns).1 [] hext1
    (FreshIds_nil _ _) h' c hr

theorem hDifference_spec (h : Heap) (a b : HNodeSet) :
    ∀ h' c, hDifference h a b = .ok (h', c) →
      HeapExt h h' ∧ FreshIds c h.size h'.size := by
  intro h' c hr
  unfold hDifference at hr
  obtain ⟨hext1, hfr1⟩ := hCopyGo_spec h a.patterns
  cases hd : hDiffGo false (hCopyGo h a.patterns).1 (hCopyGo h a.patterns).2
      [] b.patterns with
  | error e => rw [hd] at hr; cases hr
  | ok st =>
    rw [hd] at hr
    simp only [Except.ok.injEq, Prod.mk.injEq] at hr
    obtain ⟨hr1, hr2⟩ := hr
    subst hr1
    subst hr2
    obtain ⟨hext2, hfr2⟩ := hDiffGo_spec b.patterns
      (hCopyGo h a.patterns).1 (hCopyGo h a.patterns).2 [] hext1 hfr1
      st.1 st.2.1 st.2.2 (by rw [hd])
    exact ⟨hext2, fun i hid => hfr2 i (IdOf_hDelPats hid)⟩

theorem hSymmetricDifference_spec (h : Heap) (a b : HNodeSet) :
    ∀ h' c, hSymmetricDifference h a b = .ok (h', c) →
      HeapExt h h' ∧ FreshIds c h.size h'.size := by
  intro h' c hr
  unfold hSymmetricDifference at hr
  obtain ⟨hext1, hfr1⟩ := hCopyGo_spec h a.patterns
  cases h1 : hSdPhase1 (hCopyGo h a.patterns).1 b (hCopyGo h a.patterns).2 with
  | error e => rw [h1] at hr; cases hr
  | ok st =>
    rw [h1] at hr
    dsimp only at hr
    obtain ⟨hext2, hfr2, _⟩ := hSdPhase1_spec b (hCopyGo h a.patterns).2
      (hCopyGo h a.patterns).1 hext1 hfr1 st.1 st.2.1 st.2.2 (by rw [h1])
    cases h2 : hSdPhase2 st.1 st.2.1 b.patterns with
    | error e => rw [h2] at hr; cases hr
    | ok st2 =>
      rw [h2] at hr
      simp only [Except.ok.injEq, Prod.mk.injEq] at hr
      obtain ⟨hr1, hr2⟩ := hr
      subst hr1
      subst hr2
      obtain ⟨hext3, hfr3⟩ := hSdPhase2_spec b.patterns st.1 st.2.1 hext2 hfr2
        st2.1 st2.2 (by rw [h2])
      exact ⟨hext3, fun i hid => hfr3 i (IdOf_hDelPats hid)⟩

end HeapOpSpecs

/-- The denotation of a heap-model set: its templates with the RangeSet
values their ids refer to. Membership, templates and paddings of the set
are functions of this denotation. -/
def hDenote (h : Heap) (ns : List (String × Option Nat)) :
    List (String × Option RangeSet) :=
  ns.map (fun e => (e.1, e.2.map h.get))

/-- What the frame claim asserts of one non-mutating operation's outcome:
the operands' RangeSet objects are untouched (so both operands denote the
same sets afterwards), and the result holds no RangeSet object of either
operand. -/
def FrameOK (h : Heap) (a b : HNodeSet) (h' : Heap)
    (c : List (String × Option Nat)) : Prop :=
  (∀ i, IdOf a.patterns i ∨ IdOf b.patterns i → h'.get i = h.get i) ∧
  (∀ j, IdOf c j → ¬IdOf a.patterns j ∧ ¬IdOf b.patterns j) ∧
  hDenote h' a.patterns = hDenote h a.patterns ∧
  hDenote h' b.patterns = hDenote h b.patterns

theorem frame_of_ext_fresh {h h' : Heap} {a b : HNodeSet}
    {c : List (String × Option Nat)} (hva : ValidIds h a.patterns)
    (hvb : ValidIds h b.patterns) (hext : HeapExt h h')
    (hfr : FreshIds c h.size h'.size) : FrameOK h a b h' c := by
  have hpres : ∀ i, IdOf a.patterns i ∨ IdOf b.patterns i →
      h'.get i = h.get i := by
    intro i hi
    rcases hi with hi | hi
    · exact hext.2 i (hva i hi)
    · exact hext.2 i (hvb i hi)
  refine ⟨hpres, ?_, ?_, ?_⟩
  · intro j hj
    have hge := (hfr j hj).1
    constructor
    · intro hja
      have := hva j hja
      omega
    · intro hjb
      have := hvb j hjb
      omega
  · unfold hDenote
    apply List.map_congr_left
    intro e he
    obtain ⟨p, v⟩ := e
    cases v with
    | none => rfl
    | some i =>
      simp only [Option.map_some']
      rw [hpres i (Or.inl ⟨p, he⟩)]
  · unfold hDenote
    apply List.map_congr_left
    intro e he
    obtain ⟨p, v⟩ := e
    cases v with
    | none => rfl
    | some i =>
      simp only [Option.map_some']
      rw [hpres i (Or.inr ⟨p, he⟩)]

/--
C9. In the heap model of object identity, the four non-mutating operations
`union`, `intersection`, `difference` and `symmetric_difference` leave
every RangeSet object of both operands unchanged (so the operands'
membership, templates and paddings — their denotations — are unchanged),
and the result references no RangeSet object of either operand: mutating
the result afterwards can never change an operand and vice versa.
-/
theorem nonmutating_ops_frame_no_sharing (h : Heap) (a b : HNodeSet)
    (hva : ValidIds h a.patterns) (hvb : ValidIds h b.patterns) :
    (∀ h' c, hUnion h a b = .ok (h', c) → FrameOK h a b h' c) ∧
    (∀ h' c, hIntersection h a b = .ok (h', c) → FrameOK h a b h' c) ∧
    (∀ h' c, hDifference h a b = .ok (h', c) → FrameOK h a b h' c) ∧
    (∀ h' c, hSymmetricDifference h a b = .ok (h', c) → FrameOK h a b h' c) := by
  refine ⟨?_, ?_, ?_, ?_⟩
  · intro h' c hr
    obtain ⟨hext, hfr⟩ := hUnion_spec h a b h' c hr
    exact frame_of_ext_fresh hva hvb hext hfr
  · intro h' c hr
    obtain ⟨hext, hfr⟩ := hIntersection_spec h a b h' c hr
    exact frame_of_ext_fresh hva hvb hext hfr
  · intro h' c hr
    obtain ⟨hext, hfr⟩ := hDifference_spec h a b h' c hr
    exact frame_of_ext_fresh hva hvb hext hfr
  · intro h' c hr
    obtain ⟨hext, hfr⟩ := hSymmetricDifference_spec h a b h' c hr
    exact frame_of_ext_fresh hva hvb hext hfr

/-- The example heap: object 0 is `foo`'s rangeset `1-5`, object 1 is
`bar`'s rangeset `1-2`. -/
def exHeap : Heap := ⟨[⟨[1, 2, 3, 4, 5], 0, none⟩, ⟨[1, 2], 0, none⟩]⟩

/-- `foo[1-5]` in the heap model. -/
def exA : HNodeSet := ⟨[("foo%s", some 0)]⟩

/-- `bar[1-2],solo` in the heap model. -/
def exB : HNodeSet := ⟨[("bar%s", some 1), ("solo", none)]⟩

/-- Witness for C9 at concrete operands. -/
theorem nonmutating_ops_frame_no_sharing_witness :
    (∀ h' c, hUnion exHeap exA exB = .ok (h', c) → FrameOK exHeap exA exB h' c) ∧
    (∀ h' c, hIntersection exHeap exA exB = .ok (h', c) →
      FrameOK exHeap exA exB h' c) ∧
    (∀ h' c, hDifference exHeap exA exB = .ok (h', c) →
      FrameOK exHeap exA exB h' c) ∧
    (∀ h' c, hSymmetricDifference exHeap exA exB = .ok (h', c) →
      FrameOK exHeap exA exB h' c) :=
  nonmutating_ops_frame_no_sharing exHeap exA exB
    (by
      rintro i ⟨p, hp⟩
      simp [exA] at hp
      simp [exHeap, Heap.size]
      omega)
    (by
      rintro i ⟨p, hp⟩
      simp [exB] at hp
      simp [exHeap, Heap.size]
      omega)
